import Mathlib

/-!
# Verification of the SimpleDB engine (rdbms_finance_monorepo)

Shallow embedding of the core relational engine found under `src/simpledb/`:
the lexer, the recursive-descent SQL parser, the persistent catalog, the
append-only heap storage with tombstones, and the executor with type and
constraint enforcement.  Python dictionaries are modelled as insertion-ordered
association lists with first-match lookup and in-place overwrite on update,
which matches CPython semantics for the dictionaries the engine builds.
Python exceptions are modelled with `Except`; the distinct error classes
(`SqlSyntaxError`, `ExecutionError`, `ConstraintError`) become constructors of
`Err`, with an extra constructor `Err.fatal` for uncaught Python runtime
errors (`KeyError`/`IndexError`/`TypeError`) that are not Engine errors.
-/

namespace SimpleDB

/-- SQL values as stored in rows: integer, string, or boolean
(Python `int`, `str`, `bool`).  `NULL` is represented by `Option.none`
at use sites (`Option Value`), matching Python's `None`. -/
inductive Value where
  | int (n : Int)
  | str (s : String)
  | bool (b : Bool)
deriving DecidableEq, Repr

/-- Python `==` on values.  CPython treats `bool` as a subclass of `int`,
so `1 == True` and `0 == False` hold; strings never equal ints or bools. -/
def pyEq : Value → Value → Bool
  | .int a, .int b => a == b
  | .str a, .str b => a == b
  | .bool a, .bool b => a == b
  | .int a, .bool b => a == (if b then (1 : Int) else 0)
  | .bool a, .int b => (if a then (1 : Int) else 0) == b
  | .str _, .int _ => false
  | .str _, .bool _ => false
  | .int _, .str _ => false
  | .bool _, .str _ => false

/-- Python `==` lifted to nullable values: `None == None` is true,
`None` equals no non-`None` value. -/
def pyEqO : Option Value → Option Value → Bool
  | none, none => true
  | some a, some b => pyEq a b
  | none, some _ => false
  | some _, none => false

/-- Python `isinstance(v, int)` conversion: `int` values and (because `bool`
is a subclass of `int` in CPython) `bool` values count as integers. -/
def asPyInt : Option Value → Option Int
  | some (.int n) => some n
  | some (.bool b) => some (if b then 1 else 0)
  | _ => none

/-- Python `repr` of a nullable value, as used in error messages. -/
def pyRepr : Option Value → String
  | none => "None"
  | some (.int n) => toString n
  | some (.str s) => "'" ++ s ++ "'"
  | some (.bool b) => if b then "True" else "False"

/-- Python `str.upper()` restricted to ASCII, which is all the engine
uppercases (type names and keywords).  Defined by hand because it must
evaluate inside the kernel. -/
def pyUpper (s : String) : String :=
  String.mk (s.data.map (fun c =>
    if 97 ≤ c.toNat && c.toNat ≤ 122 then Char.ofNat (c.toNat - 32) else c))

/-- A row / stored record: a Python dict from field name to nullable value,
modelled as an insertion-ordered association list. -/
abbrev Row := List (String × Option Value)

/-- Python `d.get(k)`: the value bound to `k`, or `None` when the key is
absent.  (A stored `None` and an absent key are both `none` here; every
use in the engine goes through `.get`, except the membership test
`rowHas` below.) -/
def rowGet : Row → String → Option Value
  | [], _ => none
  | p :: r, k => if p.1 = k then p.2 else rowGet r k

/-- Python `k in d`. -/
def rowHas : Row → String → Bool
  | [], _ => false
  | p :: r, k => p.1 = k || rowHas r k

/-- Overwrite every binding of key `k` in place (the engine's rows bind each
key at most once, so this is Python's in-place `d[k] = v` on a present key). -/
def rowOverwrite : Row → String → Option Value → Row
  | [], _, _ => []
  | p :: r, k, v => (if p.1 = k then (k, v) else p) :: rowOverwrite r k v

/-- Python `d[k] = v`: overwrite in place if the key is present
(preserving its position), else append at the end. -/
def rowSet (r : Row) (k : String) (v : Option Value) : Row :=
  if rowHas r k then rowOverwrite r k v else r ++ [(k, v)]

/-- Python dict-merge `{base..., entries...}`: insert each entry of
`entries` in order into `base`, later bindings overwriting earlier ones. -/
def rowMerge (base : Row) (entries : Row) : Row :=
  entries.foldl (fun acc p => rowSet acc p.1 p.2) base

@[simp] theorem rowGet_nil (k : String) : rowGet [] k = none := rfl

theorem rowGet_cons (p : String × Option Value) (r : Row) (k : String) :
    rowGet (p :: r) k = if p.1 = k then p.2 else rowGet r k := rfl

theorem rowHas_cons (p : String × Option Value) (r : Row) (k : String) :
    rowHas (p :: r) k = (p.1 = k || rowHas r k) := rfl

theorem rowGet_append (r₁ r₂ : Row) (k : String) :
    rowGet (r₁ ++ r₂) k = if rowHas r₁ k then rowGet r₁ k else rowGet r₂ k := by
  induction r₁ with
  | nil => simp [rowHas]
  | cons p r ih =>
      by_cases h : p.1 = k <;>
        simp [rowGet_cons, rowHas_cons, h, ih]

theorem rowGet_overwrite_ne (r : Row) (k c : String) (v : Option Value) (hkc : k ≠ c) :
    rowGet (rowOverwrite r k v) c = rowGet r c := by
  induction r with
  | nil => rfl
  | cons p r ih =>
      by_cases hpk : p.1 = k
      · have hpc : p.1 ≠ c := by rw [hpk]; exact hkc
        simp [rowOverwrite, rowGet_cons, hpk, hkc, hpc, ih]
      · by_cases hpc : p.1 = c
        · have hck : ¬c = k := by rw [← hpc]; exact hpk
          simp [rowOverwrite, rowGet_cons, hpk, hpc, hck, ih]
        · simp [rowOverwrite, rowGet_cons, hpk, hpc, ih]

theorem rowGet_of_not_has (r : Row) (k : String) (h : rowHas r k = false) :
    rowGet r k = none := by
  induction r with
  | nil => rfl
  | cons p r ih =>
      rw [rowHas_cons] at h
      by_cases hpk : p.1 = k
      · simp [hpk] at h
      · simp only [hpk, decide_eq_true_eq, decide_False, Bool.false_or] at h
        simp [rowGet_cons, hpk, ih h]

theorem rowGet_overwrite_eq (r : Row) (k : String) (v : Option Value)
    (hk : rowHas r k = true) :
    rowGet (rowOverwrite r k v) k = v := by
  induction r with
  | nil => simp [rowHas] at hk
  | cons p r ih =>
      by_cases hpk : p.1 = k
      · simp [rowOverwrite, rowGet_cons, hpk]
      · rw [rowHas_cons] at hk
        simp only [hpk, decide_eq_true_eq, decide_False, Bool.false_or] at hk
        simp [rowOverwrite, rowGet_cons, hpk, ih, hk]

/-- Lookup after update: `rowSet` behaves like a function update. -/
theorem rowGet_rowSet (r : Row) (k : String) (v : Option Value) (c : String) :
    rowGet (rowSet r k v) c = if k = c then v else rowGet r c := by
  by_cases hk : rowHas r k
  · rw [rowSet, if_pos hk]
    by_cases hkc : k = c
    · subst hkc
      simp [rowGet_overwrite_eq r k v hk]
    · simp [rowGet_overwrite_ne r k c v hkc, hkc]
  · rw [rowSet, if_neg (by simp [hk]), rowGet_append]
    by_cases hkc : k = c
    · subst hkc
      have hc : (rowHas r k) = false := by simpa using hk
      simp [hc, rowGet_cons]
    · by_cases hrc : rowHas r c
      · simp [hrc, rowGet_cons, hkc]
      · simp only [Bool.not_eq_true] at hrc
        simp [hrc, rowGet_cons, hkc, rowGet_of_not_has r c hrc]

/-! ## Heap storage (`src/simpledb/storage/heap.py`)

A table's data file is a newline-delimited sequence of JSON records; we model
it as a `List Row` (each line one record).  The meta sidecar holds `next_rid`.
`HeapTable.open` creating empty files on first use is modelled by defaulting a
missing heap to `⟨[], 1⟩` at lookup time, which is observationally the same. -/

/-- The record's `_op` field equals the string `"DELETE"`
(`obj.get("_op") == "DELETE"`). -/
def recOpIsDelete (r : Row) : Bool := rowGet r "_op" == some (Value.str "DELETE")

/-- The record's `_deleted` field is the boolean `True`
(`obj.get("_deleted") is True`). -/
def recDeletedFlag (r : Row) : Bool := rowGet r "_deleted" == some (Value.bool true)

/-- The record's `_rid` field as a Python integer, when
`isinstance(obj.get("_rid"), int)` holds. -/
def recRid (r : Row) : Option Int := asPyInt (rowGet r "_rid")

/-- First pass of `scan_active`, tombstone side: the rids collected into the
`deleted` set.  A record with `_op == "DELETE"` contributes its integer rid;
otherwise a record with `_deleted is True` and an integer rid contributes it
(legacy form). -/
def deletedRids (log : List Row) : List Int :=
  log.filterMap (fun r =>
    if recOpIsDelete r then recRid r
    else
      match recRid r with
      | some i => if recDeletedFlag r then some i else none
      | none => none)

/-- First pass of `scan_active`, row side: the records accumulated into
`rows` (those not skipped as tombstones).  Note that a record with
`_deleted=true` but no integer `_rid` is kept here, exactly as in the source
(the `elif` guard requires both). -/
def liveCandidates (log : List Row) : List Row :=
  log.filter (fun r =>
    !recOpIsDelete r && !(recDeletedFlag r && (recRid r).isSome))

/-- `HeapTable.scan_active`: stream the log once, collect tombstoned rids and
candidate rows, then yield each candidate whose rid is an integer not in the
tombstone set, in log order. -/
def scan_active (log : List Row) : List Row :=
  (liveCandidates log).filter (fun r =>
    match recRid r with
    | some i => !(deletedRids log).contains i
    | none => false)

/-- A heap table: its record log (`<table>.jsonl`) and its meta (`next_rid`
in `<table>.meta.json`). -/
structure Heap where
  log : List Row
  next_rid : Int
deriving DecidableEq, Repr

/-- The state of a freshly opened heap: empty data file, `next_rid = 1`. -/
def Heap.empty : Heap := ⟨[], 1⟩

/-- The stored form of an inserted row: `{"_rid": rid, **row}` (the allocated
rid first, then the row's fields in order, later bindings overwriting). -/
def storedRec (rid : Int) (row : Row) : Row :=
  rowMerge [("_rid", some (Value.int rid))] row

/-- The one file operation sequence performed by `HeapTable.insert`: first the
meta write (`next_rid = rid + 1`), then the log append — in this order. -/
inductive HeapOp where
  | writeMeta (next : Int)
  | append (r : Row)
deriving DecidableEq, Repr

def applyHeapOp (h : Heap) : HeapOp → Heap
  | .writeMeta n => { h with next_rid := n }
  | .append r => { h with log := h.log ++ [r] }

/-- The ordered file operations of `HeapTable.insert(row)`. -/
def insertOps (h : Heap) (row : Row) : List HeapOp :=
  [.writeMeta (h.next_rid + 1), .append (storedRec h.next_rid row)]

/-- `HeapTable.insert(row)`: read the meta, allocate `rid = next_rid`, write
`next_rid = rid + 1` back, then append `{"_rid": rid, **row}`; returns rid. -/
def heapInsert (h : Heap) (row : Row) : Heap × Int :=
  ((insertOps h row).foldl applyHeapOp h, h.next_rid)

/-- The tombstone record `{"_op": "DELETE", "_rid": rid}`. -/
def tombRec (rid : Int) : Row :=
  [("_op", some (Value.str "DELETE")), ("_rid", some (Value.int rid))]

/-- `HeapTable.tombstone(rid)`: append one tombstone line. -/
def heapTombstone (h : Heap) (rid : Int) : Heap :=
  { h with log := h.log ++ [tombRec rid] }

/-! Spec-side rendering of `scan_active` for the refinement claim C3, written
from the spec's words: a tombstone is a record with op DELETE, and a row
record carrying a `deleted=true` flag is also treated as a tombstone; the
scan yields each non-tombstone record whose rid is not in the set of
tombstoned rids, in log order. -/

/-- Spec's words: a record is a tombstone if it has op DELETE or carries a
`deleted=true` flag. -/
def specIsTombstone (r : Row) : Bool := recOpIsDelete r || recDeletedFlag r

/-- Spec's words: the set of rids tombstoned (rids carried by tombstones). -/
def specTombstonedRids (log : List Row) : List Int :=
  log.filterMap (fun r => if specIsTombstone r then recRid r else none)

/-- Spec's words: yield each non-tombstone record whose rid is not in the
tombstone set, in log order. -/
def spec_scan_active (log : List Row) : List Row :=
  log.filter (fun r =>
    !specIsTombstone r &&
      match recRid r with
      | some i => !(specTombstonedRids log).contains i
      | none => true)

/-! ### Lookup through a dict-merge -/

/-- The binding a sequence of dict updates leaves for key `c`: the value
paired with the LAST occurrence of `c`, if any. -/
def lastBind : Row → String → Option (Option Value)
  | [], _ => none
  | p :: es, c =>
      match lastBind es c with
      | some v => some v
      | none => if p.1 = c then some p.2 else none

theorem rowGet_rowMerge (base entries : Row) (c : String) :
    rowGet (rowMerge base entries) c = (lastBind entries c).getD (rowGet base c) := by
  induction entries generalizing base with
  | nil => rfl
  | cons p es ih =>
      show rowGet (rowMerge (rowSet base p.1 p.2) es) c = _
      rw [ih]
      cases hl : lastBind es c with
      | some v => simp [lastBind, hl]
      | none =>
          by_cases hpc : p.1 = c <;>
            simp [lastBind, hl, hpc, rowGet_rowSet]

theorem lastBind_eq_none_of_not_has (es : Row) (c : String)
    (h : rowHas es c = false) : lastBind es c = none := by
  induction es with
  | nil => rfl
  | cons p es ih =>
      rw [rowHas_cons] at h
      by_cases hpc : p.1 = c
      · simp [hpc] at h
      · simp only [hpc, decide_eq_true_eq, decide_False, Bool.false_or] at h
        simp [lastBind, ih h, hpc]

theorem recRid_storedRec (rid : Int) (row : Row)
    (h : rowHas row "_rid" = false) :
    recRid (storedRec rid row) = some rid := by
  rw [recRid, storedRec, rowGet_rowMerge, lastBind_eq_none_of_not_has row _ h]
  rfl

/-! ## Claim C3 -/

/-- **C3.** `scan_active` yields exactly the non-tombstone records of the log
whose rid is not in the set of tombstoned rids, in log order, where a
tombstone is a record with op DELETE and, for backward compatibility, a row
record carrying a `deleted=true` flag.  Stated for logs whose records all
carry an integer rid, as every record written by the engine does (row records
are `{rid, …fields…}` and tombstones are `{op=DELETE, rid=R}`). -/
theorem scan_active_eq_spec (log : List Row)
    (h : ∀ r ∈ log, (recRid r).isSome = true) :
    scan_active log = spec_scan_active log := by
  have hdel : deletedRids log = specTombstonedRids log := by
    apply List.filterMap_congr
    intro r hr
    have hs := h r hr
    cases hrid : recRid r with
    | none => rw [hrid] at hs; simp at hs
    | some i =>
        by_cases hop : recOpIsDelete r
        · simp [hop, specIsTombstone, hrid]
        · by_cases hdf : recDeletedFlag r <;>
            simp [hop, hdf, specIsTombstone, hrid]
  rw [scan_active, liveCandidates, List.filter_filter, spec_scan_active, hdel]
  apply List.filter_congr
  intro r hr
  have hs := h r hr
  cases hrid : recRid r with
  | none => rw [hrid] at hs; simp at hs
  | some i =>
      by_cases hop : recOpIsDelete r
      · simp [hop, specIsTombstone, hrid]
      · by_cases hdf : recDeletedFlag r <;>
          simp [hop, hdf, specIsTombstone, hrid, Bool.and_comm]

/-- A small concrete log: a live row, a tombstone for it, a second live row. -/
def c3log : List Row :=
  [storedRec 1 [("a", some (Value.int 10))],
   tombRec 1,
   storedRec 2 [("a", some (Value.int 20))]]

theorem scan_active_eq_spec_witness :
    (∀ r ∈ c3log, (recRid r).isSome = true) ∧ scan_active c3log = spec_scan_active c3log :=
  ⟨by decide, scan_active_eq_spec c3log (by decide)⟩

/-! ## Claim C4 -/

/-- The meta's `next_rid` is strictly greater than every rid appearing in the
log. -/
def ridsBelow (h : Heap) : Prop :=
  ∀ r ∈ h.log, ∀ i, recRid r = some i → i < h.next_rid

/-- **C4.** `HeapTable.insert` allocates `rid = next_rid`, writes
`next_rid = rid + 1` back to the meta file before appending the row record
(the operation list is exactly meta-write then append), returns that rid, and
preserves the invariant that `next_rid` is strictly greater than every rid in
the log.  Stated for rows that do not themselves bind `_rid`, as every row the
executor passes down (its keys are declared column names). -/
theorem heap_insert_spec (h : Heap) (row : Row)
    (hr : rowHas row "_rid" = false) :
    insertOps h row =
        [HeapOp.writeMeta (h.next_rid + 1), HeapOp.append (storedRec h.next_rid row)] ∧
    (heapInsert h row).2 = h.next_rid ∧
    (heapInsert h row).1.next_rid = h.next_rid + 1 ∧
    (heapInsert h row).1.log = h.log ++ [storedRec h.next_rid row] ∧
    (ridsBelow h → ridsBelow (heapInsert h row).1) := by
  refine ⟨rfl, rfl, rfl, rfl, ?_⟩
  intro hb r hmem i hrid
  simp only [heapInsert, insertOps, List.foldl, applyHeapOp] at hmem ⊢
  rcases List.mem_append.mp hmem with hold | hnew
  · exact lt_trans (hb r hold i hrid) (by omega)
  · rcases List.mem_singleton.mp hnew with rfl
    rw [recRid_storedRec h.next_rid row hr] at hrid
    have hi : h.next_rid = i := by injection hrid
    omega

/-- A concrete heap for the C4 witness. -/
def c4heap : Heap := ⟨[storedRec 1 [("a", some (Value.int 10))]], 2⟩

/-- The row inserted in the C4 witness. -/
def c4row : Row := [("a", some (Value.int 20))]

theorem heap_insert_spec_witness :
    rowHas c4row "_rid" = false ∧
    ((heapInsert c4heap c4row).2 = c4heap.next_rid ∧
      (heapInsert c4heap c4row).1.next_rid = c4heap.next_rid + 1 ∧
      (heapInsert c4heap c4row).1.log = c4heap.log ++ [storedRec c4heap.next_rid c4row] ∧
      (ridsBelow c4heap → ridsBelow (heapInsert c4heap c4row).1)) :=
  ⟨by decide, (heap_insert_spec c4heap c4row (by decide)).2⟩

/-! ## Errors (`src/simpledb/errors.py`) and results (`result.py`) -/

structure Position where
  line : Nat
  col : Nat
deriving DecidableEq, Repr

/-- The engine's error classes (`SqlSyntaxError`, `ExecutionError`,
`ConstraintError`), plus `fatal` for uncaught Python runtime errors
(`KeyError` / `IndexError` / `TypeError`), which are not Engine errors and
never arise on the states the engine itself produces. -/
inductive Err where
  | synErr (msg : String) (pos : Option Position)
  | execErr (msg : String)
  | constraintErr (msg : String)
  | fatal (msg : String)
deriving DecidableEq, Repr

structure CommandOk where
  rows_affected : Nat
  message : String
deriving DecidableEq, Repr

structure QueryResult where
  columns : List String
  rows : List (List (Option Value))
deriving DecidableEq, Repr

inductive ExecResult where
  | cmd (c : CommandOk)
  | query (q : QueryResult)
deriving DecidableEq, Repr

/-! ## AST (`src/simpledb/ast.py`) -/

structure TypeSpec where
  name : String
  params : List Int
deriving DecidableEq, Repr

structure ColumnDef where
  name : String
  typ : TypeSpec
  not_null : Bool := false
  unique : Bool := false
  primary_key : Bool := false
deriving DecidableEq, Repr

structure ColumnRef where
  column : String
  table : Option String := none
deriving DecidableEq, Repr

structure Condition where
  left : ColumnRef
  op : String
  right : Value
deriving DecidableEq, Repr

structure WhereClause where
  conditions : List Condition
deriving DecidableEq, Repr

structure JoinClause where
  table_name : String
  left : ColumnRef
  right : ColumnRef
deriving DecidableEq, Repr

structure Assignment where
  column : String
  value : Value
deriving DecidableEq, Repr

inductive Stmt where
  | createTable (table_name : String) (columns : List ColumnDef)
  | createIndex (index_name : String) (table_name : String) (column_name : String)
  | insert (table_name : String) (columns : List String) (values : List Value)
  | select (columns : Option (List ColumnRef)) (from_table : String)
      (joins : List JoinClause) (whereCl : Option WhereClause)
  | update (table_name : String) (assignments : List Assignment) (whereCl : Option WhereClause)
  | delete (table_name : String) (whereCl : Option WhereClause)
deriving DecidableEq, Repr

/-! ## Generic string-keyed Python dict (for the catalog and heap maps) -/

def alistGet {β : Type} : List (String × β) → String → Option β
  | [], _ => none
  | p :: l, k => if p.1 = k then some p.2 else alistGet l k

def alistHas {β : Type} (l : List (String × β)) (k : String) : Bool :=
  (alistGet l k).isSome

def alistOverwrite {β : Type} : List (String × β) → String → β → List (String × β)
  | [], _, _ => []
  | p :: l, k, v => (if p.1 = k then (k, v) else p) :: alistOverwrite l k v

/-- Python `d[k] = v` on a string-keyed dict. -/
def alistSet {β : Type} (l : List (String × β)) (k : String) (v : β) : List (String × β) :=
  if alistHas l k then alistOverwrite l k v else l ++ [(k, v)]

/-! ## Catalog (`src/simpledb/catalog.py`) -/

structure IndexMeta where
  name : String
  table_name : String
  column_name : String
deriving DecidableEq, Repr

structure TableMeta where
  name : String
  columns : List ColumnDef
  indexes : List (String × IndexMeta)
deriving DecidableEq, Repr

/-- `TableMeta.column_names` (a set in Python; only membership is used). -/
def columnNames (t : TableMeta) : List String := t.columns.map (·.name)

/-- `TableMeta.primary_key_column`: the first column flagged `primary_key`. -/
def primary_key_column (t : TableMeta) : Option String :=
  (t.columns.find? (·.primary_key)).map (·.name)

structure Catalog where
  version : Int
  tables : List (String × TableMeta)
  indexes : List (String × IndexMeta)
deriving DecidableEq, Repr

def Catalog.empty : Catalog := ⟨1, [], []⟩

/-- `Catalog.require_table`. -/
def require_table (cat : Catalog) (table_name : String) : Except Err TableMeta :=
  match alistGet cat.tables table_name with
  | some t => .ok t
  | none => .error (.execErr ("Table not found: " ++ table_name))

def SUPPORTED_TYPES : List String := ["INTEGER", "VARCHAR", "TEXT", "DATE", "BOOLEAN"]

/-- `Catalog.validate_type`. -/
def validate_type (typ : TypeSpec) : Except Err Unit :=
  let tname := pyUpper typ.name
  if SUPPORTED_TYPES.contains tname = false then
    .error (.execErr ("Unsupported type: " ++ typ.name))
  else if tname = "VARCHAR" then
    match typ.params with
    | [p] =>
        if p ≤ 0 then
          .error (.execErr "VARCHAR requires exactly one positive length parameter, e.g. VARCHAR(255)")
        else .ok ()
    | _ => .error (.execErr "VARCHAR requires exactly one positive length parameter, e.g. VARCHAR(255)")
  else if typ.params.isEmpty = false then
    .error (.execErr ("Type " ++ tname ++ " does not accept parameters"))
  else .ok ()

def validateColTypes : List ColumnDef → Except Err Unit
  | [] => .ok ()
  | c :: rest =>
      match validate_type c.typ with
      | .error e => .error e
      | .ok _ => validateColTypes rest

/-- `Catalog.validate_create_table`. -/
def validate_create_table (cat : Catalog) (table_name : String)
    (columns : List ColumnDef) : Except Err Unit :=
  if alistHas cat.tables table_name then
    .error (.execErr ("Table already exists: " ++ table_name))
  else if (columns.map (·.name)).Nodup = false then
    .error (.execErr "Duplicate column name in CREATE TABLE")
  else if 1 < (columns.filter (·.primary_key)).length then
    .error (.execErr "Only one PRIMARY KEY column is supported in this phase")
  else validateColTypes columns

/-- `Catalog.validate_create_index`. -/
def validate_create_index (cat : Catalog) (index_name table_name column_name : String) :
    Except Err Unit :=
  if alistHas cat.indexes index_name then
    .error (.execErr ("Index already exists: " ++ index_name))
  else
    match require_table cat table_name with
    | .error e => .error e
    | .ok table =>
        if (columnNames table).contains column_name = false then
          .error (.execErr ("Column not found: " ++ table_name ++ "." ++ column_name))
        else .ok ()

/-! ## Database state

The per-table heap files live under `data/`; `HeapTable.open` creates the two
files empty on first use.  A missing heap entry therefore behaves exactly
like `⟨[], 1⟩`, which is how `getHeap` defaults. -/

structure DBState where
  catalog : Catalog
  heaps : List (String × Heap)
deriving DecidableEq, Repr

def getHeap (st : DBState) (n : String) : Heap := (alistGet st.heaps n).getD Heap.empty

def setHeap (st : DBState) (n : String) (h : Heap) : DBState :=
  { st with heaps := alistSet st.heaps n h }

/-- A freshly opened database directory: empty catalog, no heap files. -/
def initState : DBState := ⟨Catalog.empty, []⟩

/-! ## Executor (`src/simpledb/exec/executor.py`) -/

/-- `Executor._resolve_col`. -/
def resolve_col (table_name : String) (cr : ColumnRef) (ctx : String) : Except Err String :=
  match cr.table with
  | some t =>
      if t ≠ table_name then
        .error (.execErr (ctx ++ ": column qualifier " ++ t ++ "." ++ cr.column ++
          " does not match " ++ table_name))
      else .ok cr.column
  | none => .ok cr.column

/-- `Executor._validate_insert_types`: per populated, non-null column check
the declared type.  (Python's `bool` being a subclass of `int` is handled as
in the source: an `INTEGER` column rejects booleans explicitly.) -/
def validateRowTypes (tname : String) : List ColumnDef → Row → Except Err Unit
  | [], _ => .ok ()
  | c :: rest, row =>
      if rowHas row c.name = false then validateRowTypes tname rest row
      else
        match rowGet row c.name with
        | none => validateRowTypes tname rest row
        | some v =>
            let t := pyUpper c.typ.name
            if t = "INTEGER" then
              match v with
              | .int _ => validateRowTypes tname rest row
              | _ => .error (.execErr ("Type error: " ++ tname ++ "." ++ c.name ++ " expects INTEGER"))
            else if t = "VARCHAR" ∨ t = "TEXT" ∨ t = "DATE" then
              match v with
              | .str s =>
                  if t = "VARCHAR" then
                    match c.typ.params with
                    | m :: _ =>
                        if (s.length : Int) > m then
                          .error (.execErr ("Type error: " ++ tname ++ "." ++ c.name ++
                            " exceeds VARCHAR(" ++ toString m ++ ")"))
                        else validateRowTypes tname rest row
                    | [] => .error (.fatal "IndexError: typ.params[0]")
                  else validateRowTypes tname rest row
              | _ => .error (.execErr ("Type error: " ++ tname ++ "." ++ c.name ++ " expects TEXT/DATE"))
            else if t = "BOOLEAN" then
              match v with
              | .bool _ => validateRowTypes tname rest row
              | _ => .error (.execErr ("Type error: " ++ tname ++ "." ++ c.name ++ " expects BOOLEAN"))
            else .error (.execErr ("Unsupported type: " ++ t))

/-- The condition loop of `Executor._row_matches_where`. -/
def matchConds (table_name : String) (row : Row) : List Condition → Except Err Bool
  | [] => .ok true
  | c :: rest =>
      if c.op ≠ "=" then .error (.execErr "Only '=' is supported in WHERE in this phase")
      else
        match resolve_col table_name c.left "WHERE" with
        | .error e => .error e
        | .ok col =>
            if pyEqO (rowGet row col) (some c.right) = false then .ok false
            else matchConds table_name row rest

/-- `Executor._row_matches_where`. -/
def row_matches_where (table_name : String) (row : Row) : Option WhereClause → Except Err Bool
  | none => .ok true
  | some w => matchConds table_name row w.conditions

/-- The `[r for r in existing if self._row_matches_where(...)]` comprehension
(evaluated left to right, first exception propagating). -/
def filterMatches (table_name : String) (w : Option WhereClause) : List Row → Except Err (List Row)
  | [] => .ok []
  | r :: rest =>
      match row_matches_where table_name r w with
      | .error e => .error e
      | .ok true => (filterMatches table_name w rest).map (r :: ·)
      | .ok false => filterMatches table_name w rest

/-! ### Constraint enforcement (`Executor._enforce_constraints_batch`) -/

/-- Python `v in s` over a set of nullable values (`==`-based). -/
def pyMem (v : Option Value) (l : List (Option Value)) : Bool :=
  l.any (fun x => pyEqO x v)

/-- `existing_kept = [r for r in existing_rows if int(r.get("_rid")) not in
exclude_rids]` — `int(...)` is evaluated on every row, so a row without an
integer `_rid` raises (never the case for rows out of `scan_active`). -/
def keptRows (ex : List Int) : List Row → Except Err (List Row)
  | [] => .ok []
  | r :: rest =>
      match recRid r with
      | none => .error (.fatal "int() of missing or non-integer _rid")
      | some i =>
          if ex.contains i then keptRows ex rest
          else (keptRows ex rest).map (r :: ·)

/-- Inner column loop of the NOT NULL / PK-implies-NOT-NULL check. -/
def checkNotNullRow (tname : String) (nr : Row) : List ColumnDef → Except Err Unit
  | [] => .ok ()
  | c :: cs =>
      if (c.not_null || c.primary_key) && (rowGet nr c.name).isNone then
        if c.primary_key then
          .error (.constraintErr ("PRIMARY KEY column cannot be NULL: " ++ tname ++ "." ++ c.name))
        else
          .error (.constraintErr ("NOT NULL constraint failed: " ++ tname ++ "." ++ c.name))
      else checkNotNullRow tname nr cs

def checkNotNull (tname : String) (cols : List ColumnDef) : List Row → Except Err Unit
  | [] => .ok ()
  | nr :: rest =>
      match checkNotNullRow tname nr cols with
      | .error e => .error e
      | .ok _ => checkNotNull tname cols rest

/-- PK duplicate check over the batch, with `seen_new_pks` accumulator. -/
def checkPkList (tname pk : String) (existing_pks : List (Option Value)) :
    List Row → List (Option Value) → Except Err Unit
  | [], _ => .ok ()
  | nr :: rest, seen =>
      let pk_val := rowGet nr pk
      if pyMem pk_val existing_pks then
        .error (.constraintErr ("PRIMARY KEY constraint failed: duplicate value " ++
          pyRepr pk_val ++ " for " ++ tname ++ "." ++ pk))
      else if pyMem pk_val seen then
        .error (.constraintErr ("PRIMARY KEY constraint failed: duplicate value " ++
          pyRepr pk_val ++ " within UPDATE/INSERT batch"))
      else checkPkList tname pk existing_pks rest (pk_val :: seen)

/-- UNIQUE check for one column (nulls skipped), with `seen_new` accumulator. -/
def checkUniqueCol (tname ucol : String) (existing_vals : List (Option Value)) :
    List Row → List (Option Value) → Except Err Unit
  | [], _ => .ok ()
  | nr :: rest, seen =>
      match rowGet nr ucol with
      | none => checkUniqueCol tname ucol existing_vals rest seen
      | some v =>
          if pyMem (some v) existing_vals then
            .error (.constraintErr ("UNIQUE constraint failed: duplicate value " ++
              pyRepr (some v) ++ " for " ++ tname ++ "." ++ ucol))
          else if pyMem (some v) seen then
            .error (.constraintErr ("UNIQUE constraint failed: duplicate value " ++
              pyRepr (some v) ++ " within UPDATE/INSERT batch for " ++ tname ++ "." ++ ucol))
          else checkUniqueCol tname ucol existing_vals rest (some v :: seen)

def checkUniqueCols (tname : String) (kept newRows : List Row) : List String → Except Err Unit
  | [] => .ok ()
  | ucol :: rest =>
      match checkUniqueCol tname ucol
          ((kept.map (fun r => rowGet r ucol)).filter (·.isSome)) newRows [] with
      | .error e => .error e
      | .ok _ => checkUniqueCols tname kept newRows rest

/-- `Executor._enforce_constraints_batch`: NOT NULL / PK / UNIQUE over a
batch of candidate rows against the live rows minus `exclude_rids`. -/
def enforce_constraints_batch (t : TableMeta) (existing newRows : List Row)
    (exclude : List Int) : Except Err Unit :=
  match keptRows exclude existing with
  | .error e => .error e
  | .ok kept =>
      match checkNotNull t.name t.columns newRows with
      | .error e => .error e
      | .ok _ =>
          match
            (match primary_key_column t with
             | some pk => checkPkList t.name pk (kept.map (fun r => rowGet r pk)) newRows []
             | none => .ok ()) with
          | .error e => .error e
          | .ok _ =>
              checkUniqueCols t.name kept newRows
                ((t.columns.filter (·.unique)).map (·.name))

/-! ### INSERT -/

/-- The unknown-column loop of `Executor._insert`. -/
def insertUnknownCol (tname : String) (tcols : List String) : List String → Option Err
  | [] => none
  | c :: rest =>
      if tcols.contains c = false then
        some (.execErr ("Unknown column in INSERT: " ++ tname ++ "." ++ c))
      else insertUnknownCol tname tcols rest

/-- `row = {c.name: None for c in table.columns}` then
`for c, v in zip(stmt.columns, stmt.values): row[c] = v`. -/
def buildInsertRow (cols : List ColumnDef) (names : List String) (vals : List Value) : Row :=
  rowMerge (rowMerge [] (cols.map (fun c => (c.name, (none : Option Value)))))
           ((names.zip vals).map (fun q => (q.1, some q.2)))

/-- `Executor._insert`. -/
def execInsert (st : DBState) (tname : String) (cols : List String) (vals : List Value) :
    DBState × Except Err ExecResult :=
  match require_table st.catalog tname with
  | .error e => (st, .error e)
  | .ok table =>
      match insertUnknownCol tname (columnNames table) cols with
      | some e => (st, .error e)
      | none =>
          let row := buildInsertRow table.columns cols vals
          match validateRowTypes table.name table.columns row with
          | .error e => (st, .error e)
          | .ok _ =>
              let heap := getHeap st tname
              match enforce_constraints_batch table (scan_active heap.log) [row] [] with
              | .error e => (st, .error e)
              | .ok _ =>
                  (setHeap st tname (heapInsert heap row).1,
                   .ok (.cmd ⟨1, "1 row inserted"⟩))

/-! ### SELECT -/

def resolveSelectCols (ftable : String) : List ColumnRef → Except Err (List String)
  | [] => .ok []
  | c :: rest =>
      match resolve_col ftable c "SELECT" with
      | .error e => .error e
      | .ok n => (resolveSelectCols ftable rest).map (n :: ·)

def checkKnownSelectCols (ftable : String) (tcols : List String) : List String → Option Err
  | [] => none
  | c :: rest =>
      if tcols.contains c = false then
        some (.execErr ("Unknown column in SELECT: " ++ ftable ++ "." ++ c))
      else checkKnownSelectCols ftable tcols rest

/-- The scan/filter/project loop of `Executor._select`. -/
def selectRows (ftable : String) (w : Option WhereClause) (outCols : List String) :
    List Row → Except Err (List (List (Option Value)))
  | [] => .ok []
  | r :: rest =>
      match row_matches_where ftable r w with
      | .error e => .error e
      | .ok true => (selectRows ftable w outCols rest).map ((outCols.map (rowGet r)) :: ·)
      | .ok false => selectRows ftable w outCols rest

/-- The out_cols block of `Executor._select`: `*` expands to the declared
column order; an explicit list is qualifier-resolved and existence-checked. -/
def resolveOutCols (table : TableMeta) (ftable : String) :
    Option (List ColumnRef) → Except Err (List String)
  | none => .ok (table.columns.map (·.name))
  | some crs =>
      match resolveSelectCols ftable crs with
      | .error e => .error e
      | .ok outCols =>
          match checkKnownSelectCols ftable (columnNames table) outCols with
          | some e => Except.error e
          | none => .ok outCols

/-- `Executor._select`. -/
def execSelect (st : DBState) (cols : Option (List ColumnRef)) (ftable : String)
    (joins : List JoinClause) (w : Option WhereClause) : DBState × Except Err ExecResult :=
  if joins.isEmpty = false then
    (st, .error (.execErr "JOIN not implemented yet (later step)"))
  else
    match require_table st.catalog ftable with
    | .error e => (st, .error e)
    | .ok table =>
        let heap := getHeap st ftable
        match resolveOutCols table ftable cols with
        | .error e => (st, .error e)
        | .ok outCols =>
            match selectRows ftable w outCols (scan_active heap.log) with
            | .error e => (st, .error e)
            | .ok rows => (st, .ok (.query ⟨outCols, rows⟩))

/-! ### UPDATE -/

def checkUpdateCols (tname : String) (tcols : List String) : List Assignment → Option Err
  | [] => none
  | a :: rest =>
      if tcols.contains a.column = false then
        some (.execErr ("Unknown column in UPDATE: " ++ tname ++ "." ++ a.column))
      else checkUpdateCols tname tcols rest

/-- `candidate = {c.name: old.get(c.name) for c in table.columns}` then the
assignment overlay. -/
def buildCandidate (cols : List ColumnDef) (old : Row) (assigns : List Assignment) : Row :=
  rowMerge (rowMerge [] (cols.map (fun c => (c.name, rowGet old c.name))))
           (assigns.map (fun a => (a.column, some a.value)))

/-- The candidate-building loop of `Executor._update`: per match, take
`int(old["_rid"])` (into the exclusion set), build and type-validate the
candidate.  Returns the `(old_rid, candidate)` pairs in match order. -/
def buildUpdates (table : TableMeta) (assigns : List Assignment) :
    List Row → Except Err (List (Int × Row))
  | [] => .ok []
  | old :: rest =>
      match recRid old with
      | none => .error (.fatal "int() of missing or non-integer _rid")
      | some rid =>
          let cand := buildCandidate table.columns old assigns
          match validateRowTypes table.name table.columns cand with
          | .error e => .error e
          | .ok _ => (buildUpdates table assigns rest).map ((rid, cand) :: ·)

/-- The apply loop of `Executor._update`: per pair, append the candidate then
tombstone the old rid. -/
def applyUpdates (h : Heap) : List (Int × Row) → Heap
  | [] => h
  | (rid, cand) :: rest => applyUpdates (heapTombstone (heapInsert h cand).1 rid) rest

/-- `Executor._update`. -/
def execUpdate (st : DBState) (tname : String) (assigns : List Assignment)
    (w : Option WhereClause) : DBState × Except Err ExecResult :=
  match require_table st.catalog tname with
  | .error e => (st, .error e)
  | .ok table =>
      let heap := getHeap st tname
      match checkUpdateCols tname (columnNames table) assigns with
      | some e => (st, .error e)
      | none =>
          let existing := scan_active heap.log
          match filterMatches tname w existing with
          | .error e => (st, .error e)
          | .ok matched =>
              if matched.isEmpty then (st, .ok (.cmd ⟨0, "0 rows updated"⟩))
              else
                match buildUpdates table assigns matched with
                | .error e => (st, .error e)
                | .ok pairs =>
                    match enforce_constraints_batch table existing
                        (pairs.map (·.2)) (pairs.map (·.1)) with
                    | .error e => (st, .error e)
                    | .ok _ =>
                        (setHeap st tname (applyUpdates heap pairs),
                         .ok (.cmd ⟨matched.length, toString matched.length ++ " rows updated"⟩))

/-! ### DELETE -/

/-- The tombstoning loop of `Executor._delete`; an exception mid-loop leaves
the earlier appends in place (second component is the pending error). -/
def tombstoneAll : Heap → List Row → Heap × Option Err
  | h, [] => (h, none)
  | h, r :: rest =>
      match recRid r with
      | none => (h, some (.fatal "int() of missing or non-integer _rid"))
      | some rid => tombstoneAll (heapTombstone h rid) rest

/-- `Executor._delete`. -/
def execDelete (st : DBState) (tname : String) (w : Option WhereClause) :
    DBState × Except Err ExecResult :=
  match require_table st.catalog tname with
  | .error e => (st, .error e)
  | .ok _ =>
      let heap := getHeap st tname
      match filterMatches tname w (scan_active heap.log) with
      | .error e => (st, .error e)
      | .ok matched =>
          match tombstoneAll heap matched with
          | (h', some e) => (setHeap st tname h', .error e)
          | (h', none) =>
              (setHeap st tname h',
               .ok (.cmd ⟨matched.length, toString matched.length ++ " rows deleted"⟩))

/-! ### DDL and dispatch -/

/-- `Executor._create_table`.  `catalog.save` and `HeapTable.open` touch the
files; in-memory they leave the registered table and (observationally) an
empty heap, which `getHeap`'s default already provides. -/
def execCreateTable (st : DBState) (tname : String) (cols : List ColumnDef) :
    DBState × Except Err ExecResult :=
  match validate_create_table st.catalog tname cols with
  | .error e => (st, .error e)
  | .ok _ =>
      let table : TableMeta := ⟨tname, cols, []⟩
      ({ st with catalog := { st.catalog with tables := alistSet st.catalog.tables tname table } },
       .ok (.cmd ⟨0, "Table created: " ++ tname⟩))

/-- `Executor._create_index`: register in the global map, then in the
table's own map (an in-place mutation of the shared `TableMeta`). -/
def execCreateIndex (st : DBState) (iname tname cname : String) :
    DBState × Except Err ExecResult :=
  match validate_create_index st.catalog iname tname cname with
  | .error e => (st, .error e)
  | .ok _ =>
      let idx : IndexMeta := ⟨iname, tname, cname⟩
      let cat1 := { st.catalog with indexes := alistSet st.catalog.indexes iname idx }
      match require_table cat1 tname with
      | .error e => ({ st with catalog := cat1 }, .error e)
      | .ok table =>
          let table' := { table with indexes := alistSet table.indexes iname idx }
          ({ st with catalog := { cat1 with tables := alistSet cat1.tables tname table' } },
           .ok (.cmd ⟨0, "Index created: " ++ iname ++ " ON " ++ tname ++ "(" ++ cname ++ ")"⟩))

/-- `Executor.execute`: dispatch on the statement variant. -/
def execute (st : DBState) : Stmt → DBState × Except Err ExecResult
  | .createTable n cols => execCreateTable st n cols
  | .createIndex i t c => execCreateIndex st i t c
  | .insert t cols vals => execInsert st t cols vals
  | .select c f j w => execSelect st c f j w
  | .update t a w => execUpdate st t a w
  | .delete t w => execDelete st t w

/-! ## Claim C1 -/

/-- The statement is an INSERT or an UPDATE. -/
def stmtIsMutation : Stmt → Bool
  | .insert _ _ _ => true
  | .update _ _ _ => true
  | _ => false

/-- **C1.** Batch atomicity of mutations: whenever an INSERT or UPDATE fails
(in particular on a type-validation `ExecutionError` or a constraint
`ConstraintError`), no append was performed on any heap, so `scan_active`
yields the same sequence of rows for every table as before the call. -/
theorem mutation_error_preserves_scan (st : DBState) (s : Stmt) (st' : DBState) (e : Err)
    (hm : stmtIsMutation s = true)
    (hx : execute st s = (st', Except.error e)) :
    ∀ n, scan_active (getHeap st' n).log = scan_active (getHeap st n).log := by
  suffices hst : st' = st by intro n; rw [hst]
  cases s with
  | createTable a b => simp [stmtIsMutation] at hm
  | createIndex a b c => simp [stmtIsMutation] at hm
  | select a b c d => simp [stmtIsMutation] at hm
  | delete a b => simp [stmtIsMutation] at hm
  | insert t cols vals =>
      simp only [execute] at hx
      unfold execInsert at hx
      dsimp only at hx
      repeat' split at hx
      all_goals first
        | exact (congrArg Prod.fst hx).symm
        | exact absurd (congrArg Prod.snd hx) (by simp)
  | update t a w =>
      simp only [execute] at hx
      unfold execUpdate at hx
      dsimp only at hx
      repeat' split at hx
      all_goals first
        | exact (congrArg Prod.fst hx).symm
        | exact absurd (congrArg Prod.snd hx) (by simp)

/-- The failing INSERT used in the C1 witness (unknown table). -/
def c1stmt : Stmt := Stmt.insert "t" ["a"] [Value.int 1]

theorem mutation_error_preserves_scan_witness :
    scan_active (getHeap ((execute initState c1stmt).1) "t").log =
      scan_active (getHeap initState "t").log :=
  mutation_error_preserves_scan initState c1stmt (execute initState c1stmt).1
    (Err.execErr "Table not found: t") rfl rfl "t"

/-! ## Claim C10 -/

theorem lastBind_map_some (es : List (String × Value)) (c : String) :
    lastBind (es.map (fun q => (q.1, some q.2))) c =
      (es.reverse.find? (fun q => q.1 == c)).map (fun q => some q.2) := by
  induction es with
  | nil => rfl
  | cons q es ih =>
      show (match lastBind (es.map (fun q => (q.1, some q.2))) c with
            | some v => some v
            | none => if q.1 = c then some (some q.2) else none) = _
      rw [ih, List.reverse_cons, List.find?_append]
      cases hf : es.reverse.find? (fun q => q.1 == c) with
      | some p => simp
      | none =>
          by_cases hc : q.1 = c
          · simp [List.find?, hc]
          · have hc' : (q.1 == c) = false := by simpa using hc
            simp [List.find?, hc, hc']

theorem rowGet_baseRow (cols : List ColumnDef) (c : String) :
    rowGet (rowMerge [] (cols.map (fun cd => (cd.name, (none : Option Value))))) c = none := by
  rw [rowGet_rowMerge]
  cases hl : lastBind (cols.map (fun cd => (cd.name, (none : Option Value)))) c with
  | none => rfl
  | some v =>
      have : ∀ (l : Row), (∀ p ∈ l, p.2 = none) → ∀ w, lastBind l c = some w → w = none := by
        intro l
        induction l with
        | nil => intro _ w hw; cases hw
        | cons p l ih =>
            intro hall w hw
            rw [lastBind] at hw
            cases hl2 : lastBind l c with
            | some v2 =>
                rw [hl2] at hw
                have hw' : some v2 = some w := hw
                exact ih (fun p hp => hall p (List.mem_cons_of_mem _ hp)) w
                  (hl2.trans hw')
            | none =>
                rw [hl2] at hw
                have hw' : (if p.1 = c then some p.2 else none) = some w := hw
                by_cases hpc : p.1 = c
                · rw [if_pos hpc] at hw'
                  have := hall p (List.mem_cons_self _ _)
                  injection hw' with hw2
                  rw [← hw2, this]
                · rw [if_neg hpc] at hw'; cases hw'
      have hv := this _ (by intro p hp; rcases List.mem_map.mp hp with ⟨cd, _, rfl⟩; rfl) v hl
      rw [hv]
      rfl

/-- **C10.** An INSERT whose column list repeats an existing column is not
rejected by the unknown-column check (that check rejects exactly the lists
containing a column not declared on the table), and the row that is then
validated and stored binds each column to the value paired with its LAST
occurrence in the list; earlier occurrences are silently discarded. -/
theorem insert_dup_cols_last_wins (table : TableMeta) (tname : String)
    (names : List String) (vals : List Value) :
    (insertUnknownCol tname (columnNames table) names = none ↔
      ∀ c ∈ names, (columnNames table).contains c = true) ∧
    (∀ c, rowGet (buildInsertRow table.columns names vals) c =
      (((names.zip vals).reverse.find? (fun q => q.1 == c)).map (fun q => some q.2)).getD none) := by
  constructor
  · induction names with
    | nil => simp [insertUnknownCol]
    | cons n ns ih =>
        by_cases hn : (columnNames table).contains n = true
        · rw [insertUnknownCol,
            if_neg (show ¬(columnNames table).contains n = false from
              fun h => by rw [hn] at h; cases h), ih]
          constructor
          · intro h c hc
            rcases List.mem_cons.mp hc with rfl | hmem
            · exact hn
            · exact h c hmem
          · intro h c hc
            exact h c (List.mem_cons_of_mem _ hc)
        · simp only [Bool.not_eq_true] at hn
          rw [insertUnknownCol, if_pos hn]
          constructor
          · intro h; cases h
          · intro h
            have := h n (List.mem_cons_self _ _)
            rw [hn] at this
            cases this
  · intro c
    rw [buildInsertRow, rowGet_rowMerge, lastBind_map_some, rowGet_baseRow]

/-- The table used in the C10 witness. -/
def c10table : TableMeta :=
  ⟨"t", [⟨"a", ⟨"INTEGER", []⟩, false, false, false⟩,
         ⟨"b", ⟨"INTEGER", []⟩, false, false, false⟩], []⟩

theorem insert_dup_cols_last_wins_witness :
    insertUnknownCol "t" (columnNames c10table) ["a", "a"] = none ∧
    rowGet (buildInsertRow c10table.columns ["a", "a"] [Value.int 1, Value.int 2]) "a" =
      some (Value.int 2) := by
  have h := insert_dup_cols_last_wins c10table "t" ["a", "a"] [Value.int 1, Value.int 2]
  refine ⟨h.1.mpr (by decide), ?_⟩
  rw [h.2 "a"]
  rfl

/-! ## Claim C6 -/

/-- The target table and WHERE clause of a SELECT / UPDATE / DELETE. -/
def stmtWhereTarget : Stmt → Option (String × Option WhereClause)
  | .select _ f _ w => some (f, w)
  | .update t _ w => some (t, w)
  | .delete t w => some (t, w)
  | _ => none

/-- A state with one table `t(a INTEGER)` and no rows. -/
def c6state : DBState :=
  ⟨⟨1, [("t", ⟨"t", [⟨"a", ⟨"INTEGER", []⟩, false, false, false⟩], []⟩)], []⟩, []⟩

/-- `SELECT * FROM t WHERE x.c = 1` — the qualifier `x` does not match `t`. -/
def c6stmt : Stmt :=
  Stmt.select none "t" [] (some ⟨[⟨⟨"c", some "x"⟩, "=", Value.int 1⟩]⟩)

/-- **C6, counterexample.** A SELECT whose WHERE clause carries a qualified
column reference `x.c` with `x ≠ t` does NOT fail when the target table has
no live rows: the qualifier check runs per scanned row, so the statement
succeeds and returns an empty result. -/
theorem select_bad_qualifier_empty_table_succeeds :
    execute c6state c6stmt =
      (c6state, Except.ok (ExecResult.query ⟨["a"], []⟩)) := by rfl

theorem require_table_err_shape (cat : Catalog) (n : String) :
    ∀ e, require_table cat n = Except.error e →
      e = Err.execErr ("Table not found: " ++ n) := by
  intro e he
  rw [require_table] at he
  cases hg : alistGet cat.tables n with
  | some t =>
      rw [hg] at he
      exact Except.noConfusion he
  | none =>
      rw [hg] at he
      injection he with h
      exact h.symm

theorem matchConds_first_bad_qualifier (tgt q : String) (cond : Condition)
    (rest : List Condition) (r : Row)
    (hq : cond.left.table = some q) (hne : q ≠ tgt) :
    ∃ m, matchConds tgt r (cond :: rest) = Except.error (Err.execErr m) := by
  by_cases hop : cond.op = "="
  · refine ⟨"WHERE" ++ ": column qualifier " ++ q ++ "." ++ cond.left.column ++
      " does not match " ++ tgt, ?_⟩
    rw [matchConds, if_neg (show ¬cond.op ≠ "=" from fun h => h hop)]
    have hres : resolve_col tgt cond.left "WHERE" =
        Except.error (Err.execErr ("WHERE" ++ ": column qualifier " ++ q ++ "." ++
          cond.left.column ++ " does not match " ++ tgt)) := by
      unfold resolve_col
      rw [hq]
      exact if_pos hne
    rw [hres]
  · exact ⟨"Only '=' is supported in WHERE in this phase",
      by rw [matchConds, if_pos hop]⟩

theorem checkUpdateCols_shape (tname : String) (tcols : List String) :
    ∀ as : List Assignment, checkUpdateCols tname tcols as = none ∨
      ∃ m, checkUpdateCols tname tcols as = some (Err.execErr m) := by
  intro as
  induction as with
  | nil => exact Or.inl rfl
  | cons a rest ih =>
      rw [checkUpdateCols]
      by_cases hc : tcols.contains a.column = false
      · exact Or.inr ⟨_, by rw [if_pos hc]⟩
      · rw [if_neg hc]; exact ih

theorem resolveSelectCols_err_shape (ftable : String) :
    ∀ crs : List ColumnRef, ∀ e, resolveSelectCols ftable crs = Except.error e →
      ∃ m, e = Err.execErr m := by
  intro crs
  induction crs with
  | nil => intro e he; cases he
  | cons c rest ih =>
      intro e he
      rw [resolveSelectCols] at he
      cases hr : resolve_col ftable c "SELECT" with
      | error e2 =>
          rw [hr] at he
          injection he with he
          unfold resolve_col at hr
          cases hct : c.table with
          | some t2 =>
              rw [hct] at hr
              have hr2 : (if t2 ≠ ftable then
                  Except.error (Err.execErr ("SELECT" ++ ": column qualifier " ++ t2 ++
                    "." ++ c.column ++ " does not match " ++ ftable))
                else Except.ok c.column) = Except.error e2 := hr
              by_cases ht2 : t2 ≠ ftable
              · rw [if_pos ht2] at hr2
                injection hr2 with hr3
                exact ⟨_, he ▸ hr3.symm⟩
              · rw [if_neg ht2] at hr2
                exact Except.noConfusion hr2
          | none =>
              rw [hct] at hr
              exact Except.noConfusion hr
      | ok col =>
          rw [hr] at he
          cases hrest : resolveSelectCols ftable rest with
          | error e2 =>
              rw [hrest] at he
              injection he with he
              exact he ▸ ih e2 hrest
          | ok l =>
              rw [hrest] at he
              exact Except.noConfusion he

theorem checkKnownSelectCols_shape (ftable : String) (tcols : List String) :
    ∀ cs : List String, checkKnownSelectCols ftable tcols cs = none ∨
      ∃ m, checkKnownSelectCols ftable tcols cs = some (Err.execErr m) := by
  intro cs
  induction cs with
  | nil => exact Or.inl rfl
  | cons c rest ih =>
      rw [checkKnownSelectCols]
      by_cases hc : tcols.contains c = false
      · exact Or.inr ⟨_, by rw [if_pos hc]⟩
      · rw [if_neg hc]; exact ih

theorem resolveOutCols_err_shape (table : TableMeta) (ftable : String) :
    ∀ cols : Option (List ColumnRef), ∀ e, resolveOutCols table ftable cols = Except.error e →
      ∃ m, e = Err.execErr m := by
  intro cols e he
  cases cols with
  | none => cases he
  | some crs =>
      rw [resolveOutCols] at he
      cases hrc : resolveSelectCols ftable crs with
      | error e2 =>
          rw [hrc] at he
          injection he with he
          exact he ▸ resolveSelectCols_err_shape ftable crs e2 hrc
      | ok outCols =>
          rw [hrc] at he
          have he2 : (match checkKnownSelectCols ftable (columnNames table) outCols with
            | some e => Except.error e
            | none => Except.ok outCols : Except Err (List String)) = Except.error e := he
          rcases checkKnownSelectCols_shape ftable (columnNames table) outCols
            with hck | ⟨m, hck⟩
          · rw [hck] at he2
            exact Except.noConfusion he2
          · rw [hck] at he2
            injection he2 with he3
            exact ⟨m, he3.symm⟩

/-- **C6, amended.** For a SELECT, UPDATE or DELETE whose WHERE clause's
FIRST condition carries a qualified column reference `q.c` with `q` different
from the statement's target table, `execute` fails with an `ExecutionError`
provided the target table currently has at least one live row.  (With zero
live rows — or when an earlier condition already rejects every row — the
per-row qualifier check never runs and the statement can succeed, as the
counterexample shows.) -/
theorem bad_qualifier_errors_with_live_row (st : DBState) (s : Stmt) (tgt q : String)
    (w : WhereClause) (cond : Condition) (rest : List Condition)
    (hs : stmtWhereTarget s = some (tgt, some w))
    (hw : w.conditions = cond :: rest)
    (hq : cond.left.table = some q)
    (hne : q ≠ tgt)
    (hrows : scan_active (getHeap st tgt).log ≠ []) :
    ∃ m, (execute st s).2 = Except.error (Err.execErr m) := by
  obtain ⟨conds⟩ := w
  have hc2 : conds = cond :: rest := hw
  subst hc2
  cases hscan : scan_active (getHeap st tgt).log with
  | nil => exact absurd hscan hrows
  | cons r0 rs =>
  cases s with
  | createTable a b => cases hs
  | createIndex a b c => cases hs
  | insert a b c => cases hs
  | select cols f joins wc =>
      rw [stmtWhereTarget] at hs
      injection hs with hs1
      have hf : f = tgt := congrArg Prod.fst hs1
      have hwc : wc = some ⟨cond :: rest⟩ := congrArg Prod.snd hs1
      show ∃ m, (execSelect st cols f joins wc).2 = Except.error (Err.execErr m)
      rw [hf, hwc]
      unfold execSelect
      by_cases hj : joins.isEmpty = false
      · rw [if_pos hj]
        exact ⟨_, rfl⟩
      · rw [if_neg hj]
        cases hrt : require_table st.catalog tgt with
        | error e =>
            refine ⟨"Table not found: " ++ tgt, ?_⟩
            have he := require_table_err_shape st.catalog tgt e hrt
            show Except.error e = _
            rw [he]
        | ok table =>
            dsimp only
            cases hoc : resolveOutCols table tgt cols with
            | error e =>
                rcases resolveOutCols_err_shape table tgt cols e hoc with ⟨m, rfl⟩
                exact ⟨m, rfl⟩
            | ok outCols =>
                rcases matchConds_first_bad_qualifier tgt q cond rest r0 hq hne with ⟨m, hm⟩
                refine ⟨m, ?_⟩
                dsimp only
                rw [hscan, selectRows]
                have hrw : row_matches_where tgt r0 (some ⟨cond :: rest⟩) =
                    Except.error (Err.execErr m) := hm
                rw [hrw]
  | update t as wc =>
      rw [stmtWhereTarget] at hs
      injection hs with hs1
      have ht : t = tgt := congrArg Prod.fst hs1
      have hwc : wc = some ⟨cond :: rest⟩ := congrArg Prod.snd hs1
      show ∃ m, (execUpdate st t as wc).2 = Except.error (Err.execErr m)
      rw [ht, hwc]
      unfold execUpdate
      cases hrt : require_table st.catalog tgt with
      | error e =>
          refine ⟨"Table not found: " ++ tgt, ?_⟩
          have he := require_table_err_shape st.catalog tgt e hrt
          show Except.error e = _
          rw [he]
      | ok table =>
          dsimp only
          rcases checkUpdateCols_shape tgt (columnNames table) as with hcu | ⟨m, hcu⟩
          · rcases matchConds_first_bad_qualifier tgt q cond rest r0 hq hne with ⟨m, hm⟩
            refine ⟨m, ?_⟩
            rw [hcu]
            dsimp only
            rw [hscan, filterMatches]
            have hrw : row_matches_where tgt r0 (some ⟨cond :: rest⟩) =
                Except.error (Err.execErr m) := hm
            rw [hrw]
          · refine ⟨m, ?_⟩
            rw [hcu]
  | delete t wc =>
      rw [stmtWhereTarget] at hs
      injection hs with hs1
      have ht : t = tgt := congrArg Prod.fst hs1
      have hwc : wc = some ⟨cond :: rest⟩ := congrArg Prod.snd hs1
      show ∃ m, (execDelete st t wc).2 = Except.error (Err.execErr m)
      rw [ht, hwc]
      unfold execDelete
      cases hrt : require_table st.catalog tgt with
      | error e =>
          refine ⟨"Table not found: " ++ tgt, ?_⟩
          have he := require_table_err_shape st.catalog tgt e hrt
          show Except.error e = _
          rw [he]
      | ok table =>
          dsimp only
          rcases matchConds_first_bad_qualifier tgt q cond rest r0 hq hne with ⟨m, hm⟩
          refine ⟨m, ?_⟩
          rw [hscan, filterMatches]
          have hrw : row_matches_where tgt r0 (some ⟨cond :: rest⟩) =
              Except.error (Err.execErr m) := hm
          rw [hrw]

/-- A state with table `t(a INTEGER)` holding one live row for the C6
witness. -/
def c6state2 : DBState :=
  ⟨⟨1, [("t", ⟨"t", [⟨"a", ⟨"INTEGER", []⟩, false, false, false⟩], []⟩)], []⟩,
   [("t", ⟨[storedRec 1 [("a", some (Value.int 1))]], 2⟩)]⟩

theorem bad_qualifier_errors_with_live_row_witness :
    ∃ m, (execute c6state2 c6stmt).2 = Except.error (Err.execErr m) :=
  bad_qualifier_errors_with_live_row c6state2 c6stmt "t" "x"
    ⟨[⟨⟨"c", some "x"⟩, "=", Value.int 1⟩]⟩ ⟨⟨"c", some "x"⟩, "=", Value.int 1⟩ []
    rfl rfl rfl (by decide) (by decide)

/-! ## Claim C2 — infrastructure -/

section Alist
variable {β : Type}

theorem alistGet_of_not_has (l : List (String × β)) (k : String)
    (h : alistHas l k = false) : alistGet l k = none := by
  rw [alistHas] at h
  cases hg : alistGet l k with
  | none => rfl
  | some v => rw [hg] at h; cases h

theorem alistGet_append (l₁ l₂ : List (String × β)) (k : String) :
    alistGet (l₁ ++ l₂) k =
      if alistHas l₁ k then alistGet l₁ k else alistGet l₂ k := by
  induction l₁ with
  | nil => simp [alistGet, alistHas]
  | cons p l ih =>
      rw [List.cons_append]
      show (if p.1 = k then some p.2 else alistGet (l ++ l₂) k) = _
      by_cases h : p.1 = k
      · simp [alistGet, alistHas, h]
      · rw [if_neg h, ih]
        have hh : alistHas (p :: l) k = alistHas l k := by
          rw [alistHas, alistGet, if_neg h, ← alistHas]
        rw [hh]
        show _ = if alistHas l k then (if p.1 = k then some p.2 else alistGet l k) else _
        rw [if_neg h]

theorem alistGet_overwrite_eq (l : List (String × β)) (k : String) (v : β)
    (hk : alistHas l k = true) :
    alistGet (alistOverwrite l k v) k = some v := by
  induction l with
  | nil => simp [alistHas, alistGet] at hk
  | cons p l ih =>
      by_cases hpk : p.1 = k
      · simp [alistOverwrite, alistGet, hpk]
      · have hk2 : alistHas l k = true := by
          rw [alistHas, alistGet, if_neg hpk, ← alistHas] at hk
          exact hk
        simp [alistOverwrite, alistGet, hpk, ih hk2]

theorem alistGet_overwrite_ne (l : List (String × β)) (k c : String) (v : β)
    (hkc : k ≠ c) :
    alistGet (alistOverwrite l k v) c = alistGet l c := by
  induction l with
  | nil => rfl
  | cons p l ih =>
      by_cases hpk : p.1 = k
      · have hpc : p.1 ≠ c := by rw [hpk]; exact hkc
        simp [alistOverwrite, alistGet, hpk, hkc, hpc, ih]
      · by_cases hpc : p.1 = c
        · have hck : ¬c = k := by rw [← hpc]; exact hpk
          simp [alistOverwrite, alistGet, hpk, hpc, hck, ih]
        · simp [alistOverwrite, alistGet, hpk, hpc, ih]

/-- Lookup after dict assignment. -/
theorem alistGet_alistSet (l : List (String × β)) (k : String) (v : β) (c : String) :
    alistGet (alistSet l k v) c = if k = c then some v else alistGet l c := by
  by_cases hk : alistHas l k
  · rw [alistSet, if_pos hk]
    by_cases hkc : k = c
    · subst hkc
      simp [alistGet_overwrite_eq l k v hk]
    · simp [alistGet_overwrite_ne l k c v hkc, hkc]
  · rw [alistSet, if_neg (by simp [hk]), alistGet_append]
    by_cases hkc : k = c
    · subst hkc
      have hc : alistHas l k = false := by simpa using hk
      simp [hc, alistGet, alistGet_of_not_has l k hc]
    · by_cases hlc : alistHas l c
      · simp [hlc, alistGet, hkc]
      · simp only [Bool.not_eq_true] at hlc
        simp [hlc, alistGet, hkc, alistGet_of_not_has l c hlc]

end Alist

theorem getHeap_setHeap (st : DBState) (n : String) (h : Heap) (m : String) :
    getHeap (setHeap st n h) m = if n = m then h else getHeap st m := by
  rw [getHeap, setHeap]
  show (alistGet (alistSet st.heaps n h) m).getD Heap.empty = _
  rw [alistGet_alistSet]
  by_cases hnm : n = m <;> simp [hnm, getHeap]

theorem setHeap_catalog (st : DBState) (n : String) (h : Heap) :
    (setHeap st n h).catalog = st.catalog := rfl

/-! ### Keys of engine-built rows -/

/-- The dict keys of a row are distinct (true of every Python dict). -/
def keysNodup (r : Row) : Prop := (r.map Prod.fst).Nodup

theorem rowOverwrite_keys (r : Row) (k : String) (v : Option Value) :
    (rowOverwrite r k v).map Prod.fst = r.map Prod.fst := by
  induction r with
  | nil => rfl
  | cons p r ih =>
      by_cases hpk : p.1 = k <;> simp [rowOverwrite, hpk, ih]

theorem rowHas_iff_mem_keys (r : Row) (k : String) :
    rowHas r k = true ↔ k ∈ r.map Prod.fst := by
  induction r with
  | nil => simp [rowHas]
  | cons p r ih =>
      rw [rowHas_cons, List.map_cons]
      by_cases hpk : p.1 = k
      · constructor
        · intro _
          exact List.mem_cons.mpr (Or.inl hpk.symm)
        · intro _
          simp [hpk]
      · have hpk2 : (decide (p.1 = k)) = false := by simpa using hpk
        rw [hpk2, Bool.false_or, ih]
        constructor
        · intro hm
          exact List.mem_cons_of_mem _ hm
        · intro hm
          rcases List.mem_cons.mp hm with he | hm2
          · exact absurd he.symm hpk
          · exact hm2

theorem keysNodup_rowSet (r : Row) (k : String) (v : Option Value)
    (h : keysNodup r) : keysNodup (rowSet r k v) := by
  rw [rowSet]
  by_cases hk : rowHas r k
  · rw [if_pos hk, keysNodup, rowOverwrite_keys]
    exact h
  · rw [if_neg hk, keysNodup, List.map_append, List.nodup_append]
    refine ⟨h, List.nodup_singleton _, ?_⟩
    intro a ha hb
    simp only [List.map_cons, List.map_nil, List.mem_singleton] at hb
    subst hb
    exact hk ((rowHas_iff_mem_keys r a).mpr ha)

theorem keysNodup_rowMerge (base : Row) (es : Row) (h : keysNodup base) :
    keysNodup (rowMerge base es) := by
  induction es generalizing base with
  | nil => exact h
  | cons p es ih =>
      show keysNodup (rowMerge (rowSet base p.1 p.2) es)
      exact ih _ (keysNodup_rowSet base p.1 p.2 h)

theorem rowHas_rowSet_of_has (r : Row) (k : String) (v : Option Value) (c : String)
    (h : rowHas r c = true) : rowHas (rowSet r k v) c = true := by
  rw [rowSet]
  by_cases hk : rowHas r k
  · rw [if_pos hk, rowHas_iff_mem_keys, rowOverwrite_keys]
    exact (rowHas_iff_mem_keys r c).mp h
  · rw [if_neg hk, rowHas_iff_mem_keys, List.map_append]
    exact List.mem_append.mpr (Or.inl ((rowHas_iff_mem_keys r c).mp h))

theorem rowHas_rowMerge_of_base (base es : Row) (c : String)
    (h : rowHas base c = true) : rowHas (rowMerge base es) c = true := by
  induction es generalizing base with
  | nil => exact h
  | cons p es ih =>
      show rowHas (rowMerge (rowSet base p.1 p.2) es) c = true
      exact ih _ (rowHas_rowSet_of_has base p.1 p.2 c h)

/-- With distinct keys, the last binding is the (first-match) lookup. -/
theorem lastBind_of_keysNodup (r : Row) (k : String) (h : keysNodup r) :
    lastBind r k = if rowHas r k then some (rowGet r k) else none := by
  induction r with
  | nil => simp [lastBind, rowHas]
  | cons p r ih =>
      rw [keysNodup, List.map_cons, List.nodup_cons] at h
      by_cases hpk : p.1 = k
      · have hrk : rowHas r k = false := by
          rw [Bool.eq_false_iff]
          intro hmem
          exact h.1 (hpk ▸ (rowHas_iff_mem_keys r k).mp hmem)
        rw [lastBind, lastBind_eq_none_of_not_has r k hrk]
        rw [rowHas_cons, rowGet_cons, if_pos hpk]
        simp [hpk, hrk]
      · rw [lastBind, ih h.2]
        rw [rowHas_cons, rowGet_cons, if_neg hpk]
        have hpk2 : (decide (p.1 = k)) = false := by simpa using hpk
        rw [hpk2, Bool.false_or]
        by_cases hrk : rowHas r k <;> simp [hrk, hpk]

/-- On a dict with distinct keys that binds `k`, the stored record
`{"_rid": rid, **row}` looks up `k` to the row's own value. -/
theorem rowGet_storedRec_of_has (rid : Int) (row : Row) (k : String)
    (hnd : keysNodup row) (hk : rowHas row k = true) :
    rowGet (storedRec rid row) k = rowGet row k := by
  rw [storedRec, rowGet_rowMerge, lastBind_of_keysNodup row k hnd, if_pos hk]
  rfl

/-! ### Scan decomposition -/

/-- The yield condition of `scan_active`: integer rid not in the tombstone
set.  (Also the keep condition of `existing_kept` with the exclusion set.) -/
def keepPred (dels : List Int) (r : Row) : Bool :=
  match recRid r with
  | some i => !dels.contains i
  | none => false

theorem scan_active_eq_filter (log : List Row) :
    scan_active log = (liveCandidates log).filter (keepPred (deletedRids log)) := rfl

theorem deletedRids_append (l₁ l₂ : List Row) :
    deletedRids (l₁ ++ l₂) = deletedRids l₁ ++ deletedRids l₂ :=
  List.filterMap_append l₁ l₂ _

theorem liveCandidates_append (l₁ l₂ : List Row) :
    liveCandidates (l₁ ++ l₂) = liveCandidates l₁ ++ liveCandidates l₂ :=
  List.filter_append l₁ l₂

theorem scan_active_append (l₁ l₂ : List Row) :
    scan_active (l₁ ++ l₂) =
      (liveCandidates l₁).filter (keepPred (deletedRids l₁ ++ deletedRids l₂)) ++
      (liveCandidates l₂).filter (keepPred (deletedRids l₁ ++ deletedRids l₂)) := by
  rw [scan_active_eq_filter, liveCandidates_append, deletedRids_append, List.filter_append]

theorem keepPred_append_left (d₁ d₂ : List Int) (r : Row)
    (h : keepPred (d₁ ++ d₂) r = true) : keepPred d₁ r = true := by
  rw [keepPred] at h ⊢
  cases hrid : recRid r with
  | none => rw [hrid] at h; cases h
  | some i =>
      rw [hrid] at h
      have h2 : (!(d₁ ++ d₂).contains i) = true := h
      show (!d₁.contains i) = true
      simp at h2 ⊢
      exact h2.1

theorem keepPred_append_right (d₁ d₂ : List Int) (r : Row)
    (h : keepPred (d₁ ++ d₂) r = true) : keepPred d₂ r = true := by
  rw [keepPred] at h ⊢
  cases hrid : recRid r with
  | none => rw [hrid] at h; cases h
  | some i =>
      rw [hrid] at h
      have h2 : (!(d₁ ++ d₂).contains i) = true := h
      show (!d₂.contains i) = true
      simp at h2 ⊢
      exact h2.2

/-- The old-log part of a scan of an extended log is a sublist of the old
scan. -/
theorem scan_old_part_sublist (l₁ l₂ : List Row) :
    ((liveCandidates l₁).filter
        (keepPred (deletedRids l₁ ++ deletedRids l₂))).Sublist (scan_active l₁) := by
  rw [scan_active_eq_filter]
  exact List.monotone_filter_right _ (fun r h => keepPred_append_left _ _ r h)

theorem scan_rid_isSome (log : List Row) :
    ∀ r ∈ scan_active log, (recRid r).isSome = true := by
  intro r hr
  rw [scan_active_eq_filter] at hr
  have hk := (List.mem_filter.mp hr).2
  rw [keepPred] at hk
  cases hrid : recRid r with
  | none => rw [hrid] at hk; cases hk
  | some i => rfl

/-! ### Python set-membership facts -/

theorem pyMem_false_iff (v : Option Value) (l : List (Option Value)) :
    pyMem v l = false ↔ ∀ x ∈ l, pyEqO x v = false := by
  rw [pyMem]
  simp [List.any_eq_true]

theorem pyMem_cons (v x : Option Value) (l : List (Option Value)) :
    pyMem v (x :: l) = (pyEqO x v || pyMem v l) := by
  rw [pyMem, pyMem, List.any_cons]

/-! ### What a successful constraint batch guarantees for the PK -/

theorem checkPkList_ok_facts (tname pk : String) (epks : List (Option Value)) :
    ∀ (news : List Row) (seen : List (Option Value)),
      checkPkList tname pk epks news seen = Except.ok () →
      (∀ nr ∈ news, pyMem (rowGet nr pk) epks = false ∧
        pyMem (rowGet nr pk) seen = false) ∧
      List.Pairwise (fun a b => pyEqO (rowGet a pk) (rowGet b pk) = false) news := by
  intro news
  induction news with
  | nil =>
      intro seen _
      exact ⟨fun nr hnr => absurd hnr (List.not_mem_nil nr), List.Pairwise.nil⟩
  | cons nr rest ih =>
      intro seen h
      rw [checkPkList] at h
      by_cases h1 : pyMem (rowGet nr pk) epks = true
      · rw [if_pos h1] at h; cases h
      · rw [if_neg h1] at h
        by_cases h2 : pyMem (rowGet nr pk) seen = true
        · rw [if_pos h2] at h; cases h
        · rw [if_neg h2] at h
          have hf := ih (rowGet nr pk :: seen) h
          simp only [Bool.not_eq_true] at h1 h2
          refine ⟨?_, ?_⟩
          · intro r hr
            rcases List.mem_cons.mp hr with rfl | hmem
            · exact ⟨h1, h2⟩
            · have hx := (hf.1 r hmem)
              refine ⟨hx.1, ?_⟩
              have := hx.2
              rw [pyMem_cons] at this
              exact (Bool.or_eq_false_iff.mp this).2
          · refine List.Pairwise.cons ?_ hf.2
            intro r hmem
            have := (hf.1 r hmem).2
            rw [pyMem_cons] at this
            exact (Bool.or_eq_false_iff.mp this).1

theorem enforce_ok_pk_parts (t : TableMeta) (existing news : List Row)
    (excl : List Int) (pk : String)
    (h : enforce_constraints_batch t existing news excl = Except.ok ())
    (hpk : primary_key_column t = some pk) :
    ∃ kept, keptRows excl existing = Except.ok kept ∧
      checkPkList t.name pk (kept.map (fun r => rowGet r pk)) news [] = Except.ok () := by
  unfold enforce_constraints_batch at h
  split at h
  · cases h
  · rename_i kept hkept
    split at h
    · cases h
    · rename_i u hnn
      split at h
      · cases h
      · rename_i u2 hpkmatch
        rw [hpk] at hpkmatch
        exact ⟨kept, hkept, hpkmatch⟩

/-- `existing_kept` under the guarantee that every row carries an integer
rid (true of scan output): it is exactly the filter by the non-excluded-rid
predicate. -/
theorem keptRows_ok_of_isSome (ex : List Int) :
    ∀ rows : List Row, (∀ r ∈ rows, (recRid r).isSome = true) →
      keptRows ex rows = Except.ok (rows.filter (keepPred ex)) := by
  intro rows
  induction rows with
  | nil => intro _; rfl
  | cons r rest ih =>
      intro hall
      have hr := hall r (List.mem_cons_self _ _)
      cases hrid : recRid r with
      | none => rw [hrid] at hr; cases hr
      | some i =>
          rw [keptRows, hrid]
          show (if ex.contains i = true then keptRows ex rest
            else Except.map (fun x => r :: x) (keptRows ex rest)) = _
          have hrest := ih (fun x hx => hall x (List.mem_cons_of_mem _ hx))
          by_cases hc : ex.contains i = true
          · rw [if_pos hc, hrest, List.filter_cons]
            have hkp : keepPred ex r = false := by
              rw [keepPred, hrid]
              show (!ex.contains i) = false
              rw [hc]
              rfl
            rw [hkp]
            simp
          · simp only [Bool.not_eq_true] at hc
            rw [if_neg (show ¬ex.contains i = true from
              fun hcontra => by rw [hc] at hcontra; exact Bool.noConfusion hcontra),
              hrest, List.filter_cons]
            have hkp : keepPred ex r = true := by
              rw [keepPred, hrid]
              show (!ex.contains i) = true
              rw [hc]
              rfl
            rw [hkp]
            simp [Except.map]

/-! ### Inversion of successful executions -/

theorem require_table_ok (cat : Catalog) (n : String) (t : TableMeta) :
    require_table cat n = Except.ok t ↔ alistGet cat.tables n = some t := by
  rw [require_table]
  cases hg : alistGet cat.tables n with
  | some t0 =>
      constructor
      · intro h
        injection h with h2
        exact congrArg some h2
      · intro h
        injection h with h2
        exact congrArg Except.ok h2
  | none =>
      constructor
      · intro h; cases h
      · intro h; cases h

theorem execInsert_ok_inv (st : DBState) (tname : String) (cols : List String)
    (vals : List Value) (st' : DBState) (r : ExecResult)
    (hx : execInsert st tname cols vals = (st', Except.ok r)) :
    ∃ table, alistGet st.catalog.tables tname = some table ∧
      enforce_constraints_batch table (scan_active (getHeap st tname).log)
        [buildInsertRow table.columns cols vals] [] = Except.ok () ∧
      st' = setHeap st tname
        (heapInsert (getHeap st tname) (buildInsertRow table.columns cols vals)).1 := by
  unfold execInsert at hx
  dsimp only at hx
  repeat' split at hx
  all_goals try (exact Except.noConfusion (congrArg Prod.snd hx))
  rename_i x3 table hrt x2 hcols x1 a1 hval x0 a0 henf
  exact ⟨table, (require_table_ok st.catalog tname table).mp hrt, henf,
    (congrArg Prod.fst hx).symm⟩

theorem execUpdate_ok_inv (st : DBState) (tname : String) (assigns : List Assignment)
    (w : Option WhereClause) (st' : DBState) (r : ExecResult)
    (hx : execUpdate st tname assigns w = (st', Except.ok r)) :
    st' = st ∨
    ∃ table matched pairs,
      alistGet st.catalog.tables tname = some table ∧
      filterMatches tname w (scan_active (getHeap st tname).log) = Except.ok matched ∧
      buildUpdates table assigns matched = Except.ok pairs ∧
      enforce_constraints_batch table (scan_active (getHeap st tname).log)
        (pairs.map (·.2)) (pairs.map (·.1)) = Except.ok () ∧
      st' = setHeap st tname (applyUpdates (getHeap st tname) pairs) := by
  unfold execUpdate at hx
  dsimp only at hx
  repeat' split at hx
  all_goals try (exact Except.noConfusion (congrArg Prod.snd hx))
  · exact Or.inl (congrArg Prod.fst hx).symm
  · rename_i x4 table hrt x3 hchk x2 matched hfm hne x1 pairs hbu x0 a0 henf
    exact Or.inr ⟨table, matched, pairs,
      (require_table_ok st.catalog tname table).mp hrt, hfm, hbu, henf,
      (congrArg Prod.fst hx).symm⟩

theorem execDelete_ok_inv (st : DBState) (tname : String) (w : Option WhereClause)
    (st' : DBState) (r : ExecResult)
    (hx : execDelete st tname w = (st', Except.ok r)) :
    ∃ table matched h2,
      alistGet st.catalog.tables tname = some table ∧
      filterMatches tname w (scan_active (getHeap st tname).log) = Except.ok matched ∧
      tombstoneAll (getHeap st tname) matched = (h2, none) ∧
      st' = setHeap st tname h2 := by
  unfold execDelete at hx
  dsimp only at hx
  repeat' split at hx
  all_goals try (exact Except.noConfusion (congrArg Prod.snd hx))
  rename_i x3 table hrt x2 matched hfm x1 h2 htmb
  exact ⟨table, matched, h2, (require_table_ok st.catalog tname table).mp hrt,
    hfm, htmb, (congrArg Prod.fst hx).symm⟩

theorem execCreateTable_ok_inv (st : DBState) (tname : String) (cols : List ColumnDef)
    (st' : DBState) (r : ExecResult)
    (hx : execCreateTable st tname cols = (st', Except.ok r)) :
    validate_create_table st.catalog tname cols = Except.ok () ∧
    st' = { st with catalog := { st.catalog with
      tables := alistSet st.catalog.tables tname ⟨tname, cols, []⟩ } } := by
  unfold execCreateTable at hx
  dsimp only at hx
  repeat' split at hx
  all_goals try (exact Except.noConfusion (congrArg Prod.snd hx))
  rename_i x0 a0 hval
  exact ⟨hval, (congrArg Prod.fst hx).symm⟩

theorem execCreateIndex_ok_inv (st : DBState) (iname tname cname : String)
    (st' : DBState) (r : ExecResult)
    (hx : execCreateIndex st iname tname cname = (st', Except.ok r)) :
    ∃ table,
      alistGet st.catalog.tables tname = some table ∧
      st' = { st with catalog := { st.catalog with
        indexes := alistSet st.catalog.indexes iname ⟨iname, tname, cname⟩,
        tables := alistSet st.catalog.tables tname
          { table with indexes := alistSet table.indexes iname ⟨iname, tname, cname⟩ } } } := by
  unfold execCreateIndex at hx
  dsimp only at hx
  repeat' split at hx
  all_goals try (exact Except.noConfusion (congrArg Prod.snd hx))
  rename_i x1 a1 hval x0 table hrt
  refine ⟨table, ?_, ?_⟩
  · have := (require_table_ok _ tname table).mp hrt
    exact this
  · exact (congrArg Prod.fst hx).symm

theorem execSelect_fst (st : DBState) (cols : Option (List ColumnRef)) (f : String)
    (j : List JoinClause) (w : Option WhereClause) :
    (execSelect st cols f j w).1 = st := by
  unfold execSelect
  dsimp only
  repeat' split
  all_goals rfl

/-! ### The records appended by UPDATE / DELETE / INSERT -/

theorem recOpIsDelete_tombRec (i : Int) : recOpIsDelete (tombRec i) = true := rfl

theorem recRid_tombRec (i : Int) : recRid (tombRec i) = some i := rfl

theorem heapInsert_fst (h : Heap) (row : Row) :
    (heapInsert h row).1 = ⟨h.log ++ [storedRec h.next_rid row], h.next_rid + 1⟩ := rfl

/-- The records the UPDATE apply loop appends: per pair a stored candidate
(at the successively allocated rid) followed by the old rid's tombstone. -/
def updateExt (n : Int) : List (Int × Row) → List Row
  | [] => []
  | (orid, cand) :: rest => storedRec n cand :: tombRec orid :: updateExt (n + 1) rest

/-- Just the stored candidates, in order. -/
def extStored (n : Int) : List (Int × Row) → List Row
  | [] => []
  | (_, cand) :: rest => storedRec n cand :: extStored (n + 1) rest

theorem applyUpdates_log (pairs : List (Int × Row)) :
    ∀ h : Heap, (applyUpdates h pairs).log = h.log ++ updateExt h.next_rid pairs := by
  induction pairs with
  | nil => intro h; simp [applyUpdates, updateExt]
  | cons p rest ih =>
      intro h
      obtain ⟨orid, cand⟩ := p
      rw [applyUpdates, ih]
      show ((h.log ++ [storedRec h.next_rid cand]) ++ [tombRec orid]) ++
        updateExt (h.next_rid + 1) rest = _
      rw [updateExt]
      simp

theorem liveCandidates_updateExt_sublist (pairs : List (Int × Row)) :
    ∀ n, (liveCandidates (updateExt n pairs)).Sublist (extStored n pairs) := by
  induction pairs with
  | nil => intro n; simp [updateExt, extStored, liveCandidates]
  | cons p rest ih =>
      intro n
      obtain ⟨orid, cand⟩ := p
      rw [updateExt, extStored, liveCandidates, List.filter_cons, List.filter_cons]
      have htomb : (!recOpIsDelete (tombRec orid) &&
          !(recDeletedFlag (tombRec orid) && (recRid (tombRec orid)).isSome)) = false := rfl
      rw [htomb]
      simp only [if_false, Bool.false_eq_true]
      by_cases hsr : (!recOpIsDelete (storedRec n cand) &&
          !(recDeletedFlag (storedRec n cand) && (recRid (storedRec n cand)).isSome)) = true
      · rw [if_pos hsr]
        exact List.Sublist.cons₂ _ (ih (n + 1))
      · rw [if_neg hsr]
        exact List.Sublist.cons _ (ih (n + 1))

theorem extStored_mem (pairs : List (Int × Row)) :
    ∀ n b, b ∈ extStored n pairs →
      ∃ rid cand, cand ∈ pairs.map (fun x => x.2) ∧ b = storedRec rid cand := by
  induction pairs with
  | nil => intro n b hb; cases hb
  | cons p rest ih =>
      intro n b hb
      obtain ⟨orid, cand⟩ := p
      rw [extStored] at hb
      rcases List.mem_cons.mp hb with rfl | hb2
      · exact ⟨n, cand, List.mem_cons_self _ _, rfl⟩
      · rcases ih (n + 1) b hb2 with ⟨rid, c2, hc2, rfl⟩
        exact ⟨rid, c2, List.mem_cons_of_mem _ hc2, rfl⟩

theorem tombRec_mem_updateExt (pairs : List (Int × Row)) :
    ∀ n, ∀ p ∈ pairs, tombRec p.1 ∈ updateExt n pairs := by
  induction pairs with
  | nil => intro n p hp; cases hp
  | cons q rest ih =>
      intro n p hp
      obtain ⟨orid, cand⟩ := q
      rw [updateExt]
      rcases List.mem_cons.mp hp with rfl | hp2
      · exact List.mem_cons_of_mem _ (List.mem_cons_self _ _)
      · exact List.mem_cons_of_mem _ (List.mem_cons_of_mem _ (ih (n + 1) p hp2))

theorem updateExt_deleted (pairs : List (Int × Row)) (n : Int) :
    ∀ p ∈ pairs, p.1 ∈ deletedRids (updateExt n pairs) := by
  intro p hp
  rw [deletedRids]
  apply List.mem_filterMap.mpr
  refine ⟨tombRec p.1, tombRec_mem_updateExt pairs n p hp, ?_⟩
  rw [if_pos (recOpIsDelete_tombRec p.1), recRid_tombRec]

theorem tombstoneAll_log (rows : List Row) :
    ∀ (h h2 : Heap) (e : Option Err), tombstoneAll h rows = (h2, e) →
      ∃ ts, h2.log = h.log ++ ts ∧ ∀ r ∈ ts, recOpIsDelete r = true := by
  induction rows with
  | nil =>
      intro h h2 e hx
      injection hx with h1 h2e
      refine ⟨[], ?_, fun r hr => absurd hr (List.not_mem_nil r)⟩
      rw [← h1]
      simp
  | cons r rest ih =>
      intro h h2 e hx
      rw [tombstoneAll] at hx
      cases hrid : recRid r with
      | none =>
          rw [hrid] at hx
          injection hx with h1 h2e
          refine ⟨[], ?_, fun r hr => absurd hr (List.not_mem_nil r)⟩
          rw [← h1]
          simp
      | some rid =>
          rw [hrid] at hx
          rcases ih (heapTombstone h rid) h2 e hx with ⟨ts, hlog, hall⟩
          refine ⟨tombRec rid :: ts, ?_, ?_⟩
          · rw [hlog]
            show (h.log ++ [tombRec rid]) ++ ts = _
            simp
          · intro x hxm
            rcases List.mem_cons.mp hxm with rfl | hxm2
            · exact recOpIsDelete_tombRec rid
            · exact hall x hxm2

/-! ### Keys of built rows -/

theorem rowHas_rowSet_self (r : Row) (k : String) (v : Option Value) :
    rowHas (rowSet r k v) k = true := by
  rw [rowSet]
  by_cases hk : rowHas r k
  · rw [if_pos hk, rowHas_iff_mem_keys, rowOverwrite_keys]
    exact (rowHas_iff_mem_keys r k).mp hk
  · rw [if_neg hk, rowHas_iff_mem_keys, List.map_append]
    exact List.mem_append.mpr (Or.inr (by simp))

theorem rowHas_rowMerge_of_entry (es : Row) :
    ∀ (base : Row) (k : String), (∃ v, (k, v) ∈ es) →
      rowHas (rowMerge base es) k = true := by
  induction es with
  | nil => intro base k ⟨v, hv⟩; cases hv
  | cons p es ih =>
      intro base k ⟨v, hv⟩
      show rowHas (rowMerge (rowSet base p.1 p.2) es) k = true
      rcases List.mem_cons.mp hv with he | hmem
      · have hp1 : p.1 = k := congrArg Prod.fst he.symm
        subst hp1
        exact rowHas_rowMerge_of_base _ es p.1 (rowHas_rowSet_self base p.1 p.2)
      · exact ih _ k ⟨v, hmem⟩

theorem keysNodup_nil : keysNodup [] := List.nodup_nil

theorem buildInsertRow_keysNodup (cols : List ColumnDef) (names : List String)
    (vals : List Value) : keysNodup (buildInsertRow cols names vals) :=
  keysNodup_rowMerge _ _ (keysNodup_rowMerge _ _ keysNodup_nil)

theorem buildCandidate_keysNodup (cols : List ColumnDef) (old : Row)
    (assigns : List Assignment) : keysNodup (buildCandidate cols old assigns) :=
  keysNodup_rowMerge _ _ (keysNodup_rowMerge _ _ keysNodup_nil)

theorem primary_key_column_mem (t : TableMeta) (pk : String)
    (h : primary_key_column t = some pk) : ∃ c ∈ t.columns, c.name = pk := by
  rw [primary_key_column] at h
  cases hf : t.columns.find? (fun c => c.primary_key) with
  | none => rw [hf] at h; cases h
  | some c =>
      rw [hf] at h
      injection h with h2
      exact ⟨c, List.mem_of_find?_eq_some hf, h2⟩

theorem buildInsertRow_has (cols : List ColumnDef) (names : List String)
    (vals : List Value) (k : String) (hmem : ∃ c ∈ cols, c.name = k) :
    rowHas (buildInsertRow cols names vals) k = true := by
  rcases hmem with ⟨c, hc, rfl⟩
  apply rowHas_rowMerge_of_base
  apply rowHas_rowMerge_of_entry
  exact ⟨none, List.mem_map.mpr ⟨c, hc, rfl⟩⟩

theorem buildCandidate_has (cols : List ColumnDef) (old : Row)
    (assigns : List Assignment) (k : String) (hmem : ∃ c ∈ cols, c.name = k) :
    rowHas (buildCandidate cols old assigns) k = true := by
  rcases hmem with ⟨c, hc, rfl⟩
  apply rowHas_rowMerge_of_base
  apply rowHas_rowMerge_of_entry
  exact ⟨rowGet old c.name, List.mem_map.mpr ⟨c, hc, rfl⟩⟩

theorem buildUpdates_cands (table : TableMeta) (assigns : List Assignment) :
    ∀ (rows : List Row) (pairs : List (Int × Row)),
      buildUpdates table assigns rows = Except.ok pairs →
      ∀ pr ∈ pairs, ∃ old, pr.2 = buildCandidate table.columns old assigns := by
  intro rows
  induction rows with
  | nil =>
      intro pairs h pr hpr
      injection h with h2
      rw [← h2] at hpr
      cases hpr
  | cons old rest ih =>
      intro pairs h pr hpr
      rw [buildUpdates] at h
      cases hrid : recRid old with
      | none => rw [hrid] at h; cases h
      | some rid =>
          rw [hrid] at h
          dsimp only at h
          cases hval : validateRowTypes table.name table.columns
              (buildCandidate table.columns old assigns) with
          | error e => rw [hval] at h; cases h
          | ok u =>
              rw [hval] at h
              cases hrest : buildUpdates table assigns rest with
              | error e => rw [hrest] at h; cases h
              | ok prs =>
                  rw [hrest] at h
                  have h2 : Except.ok ((rid, buildCandidate table.columns old assigns) :: prs) =
                      (Except.ok pairs : Except Err (List (Int × Row))) := h
                  injection h2 with h3
                  rw [← h3] at hpr
                  rcases List.mem_cons.mp hpr with rfl | hmem
                  · exact ⟨old, rfl⟩
                  · exact ih prs hrest pr hmem

theorem validate_create_table_not_exists (cat : Catalog) (tname : String)
    (cols : List ColumnDef)
    (h : validate_create_table cat tname cols = Except.ok ()) :
    alistHas cat.tables tname = false := by
  rw [validate_create_table] at h
  by_cases hn : alistHas cat.tables tname = true
  · rw [if_pos hn] at h; cases h
  · simpa using hn

/-! ### The PK-uniqueness invariant -/

/-- Two rows disagree on the PK column (Python `==`). -/
def pkNe (pk : String) (a b : Row) : Prop := pyEqO (rowGet a pk) (rowGet b pk) = false

/-- For every table with a primary-key column, the live rows carry pairwise
distinct PK values. -/
def PkInv (st : DBState) : Prop :=
  ∀ n t pk, alistGet st.catalog.tables n = some t →
    primary_key_column t = some pk →
    List.Pairwise (pkNe pk) (scan_active (getHeap st n).log)

/-- Tables absent from the catalog have empty heap logs. -/
def HeapDomInv (st : DBState) : Prop :=
  ∀ n, alistGet st.catalog.tables n = none → (getHeap st n).log = []

theorem pairwise_extStored (pk : String) :
    ∀ pairs : List (Int × Row),
      List.Pairwise (fun a b => pyEqO (rowGet a pk) (rowGet b pk) = false)
        (pairs.map (fun x => x.2)) →
      (∀ cand ∈ pairs.map (fun x => x.2), keysNodup cand ∧ rowHas cand pk = true) →
      ∀ n, List.Pairwise (pkNe pk) (extStored n pairs) := by
  intro pairs
  induction pairs with
  | nil => intro _ _ n; exact List.Pairwise.nil
  | cons p rest ih =>
      intro hP hkeys n
      obtain ⟨orid, cand⟩ := p
      rw [List.map_cons] at hP hkeys
      rw [extStored]
      rcases List.pairwise_cons.mp hP with ⟨hhead, htail⟩
      have hcand := hkeys cand (List.mem_cons_self _ _)
      refine List.Pairwise.cons ?_
        (ih htail (fun c hc => hkeys c (List.mem_cons_of_mem _ hc)) (n + 1))
      intro b hb
      rcases extStored_mem rest (n + 1) b hb with ⟨rid, c2, hc2, rfl⟩
      have hc2k := hkeys c2 (List.mem_cons_of_mem _ hc2)
      show pyEqO (rowGet (storedRec n cand) pk) (rowGet (storedRec rid c2) pk) = false
      rw [rowGet_storedRec_of_has n cand pk hcand.1 hcand.2,
          rowGet_storedRec_of_has rid c2 pk hc2k.1 hc2k.2]
      exact hhead c2 hc2

/-- Appending records to a log preserves pairwise PK distinctness when the
appended live candidates are pairwise distinct and distinct from every
surviving old live row. -/
theorem pairwise_scan_append (L E : List Row) (pk : String)
    (hL : List.Pairwise (pkNe pk) (scan_active L))
    (hE : List.Pairwise (pkNe pk) (liveCandidates E))
    (hcross : ∀ a ∈ scan_active L, keepPred (deletedRids E) a = true →
      ∀ b ∈ liveCandidates E, pkNe pk a b) :
    List.Pairwise (pkNe pk) (scan_active (L ++ E)) := by
  rw [scan_active_append, List.pairwise_append]
  refine ⟨List.Pairwise.sublist (scan_old_part_sublist L E) hL,
    List.Pairwise.sublist (List.filter_sublist _) hE, ?_⟩
  intro a ha b hb
  have ha2 := List.mem_filter.mp ha
  have hb2 := List.mem_filter.mp hb
  have haL : a ∈ scan_active L := by
    rw [scan_active_eq_filter]
    exact List.mem_filter.mpr ⟨ha2.1, keepPred_append_left _ _ a ha2.2⟩
  exact hcross a haL (keepPred_append_right _ _ a ha2.2) b hb2.1

theorem heapInsert_fst_log (h : Heap) (row : Row) :
    ((heapInsert h row).1).log = h.log ++ [storedRec h.next_rid row] := rfl

theorem keepPred_nil_of_isSome (r : Row) (h : (recRid r).isSome = true) :
    keepPred [] r = true := by
  cases hrid : recRid r with
  | none => rw [hrid] at h; cases h
  | some i => rw [keepPred, hrid]; rfl

theorem preserve_insert (st st' : DBState) (tname : String) (cols : List String)
    (vals : List Value) (r : ExecResult)
    (hx : execInsert st tname cols vals = (st', Except.ok r))
    (hPk : PkInv st) (hHd : HeapDomInv st) : PkInv st' ∧ HeapDomInv st' := by
  rcases execInsert_ok_inv st tname cols vals st' r hx with ⟨table, hg, henf, rfl⟩
  constructor
  · intro n t pk hgt hpk
    have hgt2 : alistGet st.catalog.tables n = some t := hgt
    rw [getHeap_setHeap]
    by_cases hn : tname = n
    · subst hn
      rw [if_pos rfl]
      have ht : t = table := by
        have h0 := hgt2.symm.trans hg
        injection h0
      subst ht
      rw [heapInsert_fst_log]
      apply pairwise_scan_append
      · exact hPk tname t pk hg hpk
      · exact List.Pairwise.sublist (List.filter_sublist _)
          (List.Pairwise.cons (fun b hb => absurd hb (List.not_mem_nil b)) List.Pairwise.nil)
      · intro a haL _ b hb
        have hb2 : b ∈ [storedRec (getHeap st tname).next_rid
            (buildInsertRow t.columns cols vals)] := (List.filter_sublist _).subset hb
        rcases List.mem_singleton.mp hb2 with rfl
        rcases enforce_ok_pk_parts t _ _ [] pk henf hpk with ⟨kept, hkept, hchk⟩
        have hIsSome := scan_rid_isSome (getHeap st tname).log
        have hkept2 := keptRows_ok_of_isSome [] _ hIsSome
        have hkeq : kept = (scan_active (getHeap st tname).log).filter (keepPred []) := by
          have := hkept.symm.trans hkept2
          injection this with h2
        have hfacts := checkPkList_ok_facts t.name pk _ _ [] hchk
        have hmem : pyMem (rowGet (buildInsertRow t.columns cols vals) pk)
            (kept.map (fun x => rowGet x pk)) = false :=
          (hfacts.1 _ (List.mem_cons_self _ _)).1
        have haK : a ∈ kept := by
          rw [hkeq]
          exact List.mem_filter.mpr
            ⟨haL, keepPred_nil_of_isSome a (hIsSome a haL)⟩
        have hget := (pyMem_false_iff _ _).mp hmem (rowGet a pk)
          (List.mem_map.mpr ⟨a, haK, rfl⟩)
        have hrec : rowGet (storedRec (getHeap st tname).next_rid
            (buildInsertRow t.columns cols vals)) pk =
            rowGet (buildInsertRow t.columns cols vals) pk :=
          rowGet_storedRec_of_has _ _ pk (buildInsertRow_keysNodup _ _ _)
            (buildInsertRow_has _ _ _ pk (primary_key_column_mem t pk hpk))
        show pyEqO (rowGet a pk) _ = false
        rw [hrec]
        exact hget
    · rw [if_neg hn]
      exact hPk n t pk hgt2 hpk
  · intro n hn
    have hn2 : alistGet st.catalog.tables n = none := hn
    rw [getHeap_setHeap]
    by_cases hnm : tname = n
    · subst hnm
      rw [hn2] at hg
      cases hg
    · rw [if_neg hnm]
      exact hHd n hn2

theorem preserve_update (st st' : DBState) (tname : String) (assigns : List Assignment)
    (w : Option WhereClause) (r : ExecResult)
    (hx : execUpdate st tname assigns w = (st', Except.ok r))
    (hPk : PkInv st) (hHd : HeapDomInv st) : PkInv st' ∧ HeapDomInv st' := by
  rcases execUpdate_ok_inv st tname assigns w st' r hx with rfl |
    ⟨table, matched, pairs, hg, hfm, hbu, henf, rfl⟩
  · exact ⟨hPk, hHd⟩
  constructor
  · intro n t pk hgt hpk
    have hgt2 : alistGet st.catalog.tables n = some t := hgt
    rw [getHeap_setHeap]
    by_cases hn : tname = n
    · subst hn
      rw [if_pos rfl]
      have ht : t = table := by
        have h0 := hgt2.symm.trans hg
        injection h0
      subst ht
      rw [applyUpdates_log]
      rcases enforce_ok_pk_parts t _ _ _ pk henf hpk with ⟨kept, hkept, hchk⟩
      have hIsSome := scan_rid_isSome (getHeap st tname).log
      have hkept2 := keptRows_ok_of_isSome (pairs.map (fun x => x.1)) _ hIsSome
      have hkeq : kept = (scan_active (getHeap st tname).log).filter
          (keepPred (pairs.map (fun x => x.1))) := by
        have h0 := hkept.symm.trans hkept2
        injection h0
      have hfacts := checkPkList_ok_facts t.name pk _ _ [] hchk
      have hkeys : ∀ cand ∈ pairs.map (fun x => x.2),
          keysNodup cand ∧ rowHas cand pk = true := by
        intro cand hc
        rcases List.mem_map.mp hc with ⟨pr, hpr, rfl⟩
        rcases buildUpdates_cands t assigns matched pairs hbu pr hpr with ⟨old, heq⟩
        rw [heq]
        exact ⟨buildCandidate_keysNodup _ _ _,
          buildCandidate_has _ _ _ pk (primary_key_column_mem t pk hpk)⟩
      apply pairwise_scan_append
      · exact hPk tname t pk hg hpk
      · exact List.Pairwise.sublist (liveCandidates_updateExt_sublist pairs _)
          (pairwise_extStored pk pairs hfacts.2 hkeys _)
      · intro a haL hkeep b hb
        have hb2 := (liveCandidates_updateExt_sublist pairs _).subset hb
        rcases extStored_mem pairs _ b hb2 with ⟨rid, cand, hcand, rfl⟩
        have hck := hkeys cand hcand
        have hkp2 : keepPred (pairs.map (fun x => x.1)) a = true := by
          cases hrid : recRid a with
          | none =>
              have hS := hIsSome a haL
              rw [hrid] at hS
              cases hS
          | some i =>
              rw [keepPred, hrid]
              show (!(pairs.map (fun x => x.1)).contains i) = true
              rw [keepPred, hrid] at hkeep
              have hkeep2 : (!(deletedRids (updateExt
                  (getHeap st tname).next_rid pairs)).contains i) = true := hkeep
              by_cases hc : (pairs.map (fun x => x.1)).contains i = true
              · exfalso
                have hmem : i ∈ pairs.map (fun x => x.1) := by simpa using hc
                rcases List.mem_map.mp hmem with ⟨p2, hp2, hp2e⟩
                have hdel := updateExt_deleted pairs (getHeap st tname).next_rid p2 hp2
                rw [hp2e] at hdel
                have hcon : (deletedRids (updateExt
                    (getHeap st tname).next_rid pairs)).contains i = true := by
                  simpa using hdel
                rw [hcon] at hkeep2
                cases hkeep2
              · simp only [Bool.not_eq_true] at hc
                rw [hc]
                rfl
        have haK : a ∈ kept := by
          rw [hkeq]
          exact List.mem_filter.mpr ⟨haL, hkp2⟩
        have hmemf : pyMem (rowGet cand pk) (kept.map (fun x => rowGet x pk)) = false :=
          (hfacts.1 cand hcand).1
        have hget := (pyMem_false_iff _ _).mp hmemf (rowGet a pk)
          (List.mem_map.mpr ⟨a, haK, rfl⟩)
        show pyEqO (rowGet a pk) (rowGet (storedRec rid cand) pk) = false
        rw [rowGet_storedRec_of_has rid cand pk hck.1 hck.2]
        exact hget
    · rw [if_neg hn]
      exact hPk n t pk hgt2 hpk
  · intro n hn
    have hn2 : alistGet st.catalog.tables n = none := hn
    rw [getHeap_setHeap]
    by_cases hnm : tname = n
    · subst hnm
      rw [hn2] at hg
      cases hg
    · rw [if_neg hnm]
      exact hHd n hn2

theorem preserve_delete (st st' : DBState) (tname : String) (w : Option WhereClause)
    (r : ExecResult)
    (hx : execDelete st tname w = (st', Except.ok r))
    (hPk : PkInv st) (hHd : HeapDomInv st) : PkInv st' ∧ HeapDomInv st' := by
  rcases execDelete_ok_inv st tname w st' r hx with ⟨table, matched, h2, hg, hfm, htmb, rfl⟩
  rcases tombstoneAll_log matched (getHeap st tname) h2 none htmb with ⟨ts, hlog, hts⟩
  have hnil : liveCandidates ts = [] := by
    rw [liveCandidates, List.filter_eq_nil_iff]
    intro x hx2
    rw [hts x hx2]
    simp
  constructor
  · intro n t pk hgt hpk
    have hgt2 : alistGet st.catalog.tables n = some t := hgt
    rw [getHeap_setHeap]
    by_cases hn : tname = n
    · subst hn
      rw [if_pos rfl, hlog]
      apply pairwise_scan_append
      · exact hPk tname t pk hgt2 hpk
      · rw [hnil]
        exact List.Pairwise.nil
      · intro a haL hkeep b hb
        rw [hnil] at hb
        cases hb
    · rw [if_neg hn]
      exact hPk n t pk hgt2 hpk
  · intro n hn
    have hn2 : alistGet st.catalog.tables n = none := hn
    rw [getHeap_setHeap]
    by_cases hnm : tname = n
    · subst hnm
      rw [hn2] at hg
      cases hg
    · rw [if_neg hnm]
      exact hHd n hn2

theorem preserve_createTable (st st' : DBState) (tname : String)
    (cols : List ColumnDef) (r : ExecResult)
    (hx : execCreateTable st tname cols = (st', Except.ok r))
    (hPk : PkInv st) (hHd : HeapDomInv st) : PkInv st' ∧ HeapDomInv st' := by
  rcases execCreateTable_ok_inv st tname cols st' r hx with ⟨hval, rfl⟩
  have hnotex := validate_create_table_not_exists st.catalog tname cols hval
  constructor
  · intro n t pk hgt hpk
    have hgt2 : alistGet (alistSet st.catalog.tables tname ⟨tname, cols, []⟩) n = some t := hgt
    rw [alistGet_alistSet] at hgt2
    by_cases hn : tname = n
    · rw [if_pos hn] at hgt2
      have hnone : alistGet st.catalog.tables n = none := by
        subst hn
        cases hgg : alistGet st.catalog.tables tname with
        | none => rfl
        | some t0 =>
            rw [alistHas, hgg] at hnotex
            cases hnotex
      have hlog : (getHeap st n).log = [] := hHd n hnone
      show List.Pairwise (pkNe pk) (scan_active (getHeap st n).log)
      rw [hlog]
      exact List.Pairwise.nil
    · rw [if_neg hn] at hgt2
      exact hPk n t pk hgt2 hpk
  · intro n hn
    have hn2 : alistGet (alistSet st.catalog.tables tname ⟨tname, cols, []⟩) n = none := hn
    rw [alistGet_alistSet] at hn2
    by_cases hn3 : tname = n
    · rw [if_pos hn3] at hn2
      cases hn2
    · rw [if_neg hn3] at hn2
      exact hHd n hn2

theorem preserve_createIndex (st st' : DBState) (iname tname cname : String)
    (r : ExecResult)
    (hx : execCreateIndex st iname tname cname = (st', Except.ok r))
    (hPk : PkInv st) (hHd : HeapDomInv st) : PkInv st' ∧ HeapDomInv st' := by
  rcases execCreateIndex_ok_inv st iname tname cname st' r hx with ⟨table, hg, rfl⟩
  constructor
  · intro n t pk hgt hpk
    have hgt2 : alistGet (alistSet st.catalog.tables tname
        { table with indexes := alistSet table.indexes iname ⟨iname, tname, cname⟩ }) n =
        some t := hgt
    rw [alistGet_alistSet] at hgt2
    by_cases hn : tname = n
    · rw [if_pos hn] at hgt2
      injection hgt2 with ht
      have hpk2 : primary_key_column table = some pk := by
        rw [← ht] at hpk
        exact hpk
      subst hn
      exact hPk tname table pk hg hpk2
    · rw [if_neg hn] at hgt2
      exact hPk n t pk hgt2 hpk
  · intro n hn
    have hn2 : alistGet (alistSet st.catalog.tables tname
        { table with indexes := alistSet table.indexes iname ⟨iname, tname, cname⟩ }) n =
        none := hn
    rw [alistGet_alistSet] at hn2
    by_cases hn3 : tname = n
    · rw [if_pos hn3] at hn2
      cases hn2
    · rw [if_neg hn3] at hn2
      exact hHd n hn2

/-- Every successfully executed statement preserves the invariant. -/
theorem exec_preserves_inv (st st' : DBState) (s : Stmt) (r : ExecResult)
    (hx : execute st s = (st', Except.ok r))
    (hI : PkInv st ∧ HeapDomInv st) : PkInv st' ∧ HeapDomInv st' := by
  cases s with
  | createTable n cols => exact preserve_createTable st st' n cols r hx hI.1 hI.2
  | createIndex i t c => exact preserve_createIndex st st' i t c r hx hI.1 hI.2
  | insert t cols vals => exact preserve_insert st st' t cols vals r hx hI.1 hI.2
  | select c f j w =>
      have h1 : (execSelect st c f j w).1 = st' := congrArg Prod.fst hx
      rw [execSelect_fst] at h1
      rw [← h1]
      exact hI
  | update t a w => exact preserve_update st st' t a w r hx hI.1 hI.2
  | delete t w => exact preserve_delete st st' t w r hx hI.1 hI.2

/-- The states reachable from a freshly opened (empty) database by
successfully executed statements. -/
inductive Reachable : DBState → Prop
  | init : Reachable initState
  | step {st st' : DBState} {s : Stmt} {r : ExecResult} :
      Reachable st → execute st s = (st', Except.ok r) → Reachable st'

theorem reachable_inv (st : DBState) (h : Reachable st) :
    PkInv st ∧ HeapDomInv st := by
  induction h with
  | init =>
      constructor
      · intro n t pk hg _
        cases hg
      · intro n _
        rfl
  | step hr hx ih => exact exec_preserves_inv _ _ _ _ hx ih

/-! ## Claim C2 -/

/-- **C2.** Primary-key uniqueness is an invariant of every reachable
database state: for every catalogued table with a primary-key column, after
any sequence of successfully executed statements the live rows yielded by
`scan_active` carry pairwise distinct (Python `==`) PK values.  Moreover the
enforcement rule holds: a successful constraint batch guarantees that no
candidate duplicates a PK value of a non-excluded live row and that the
candidates are pairwise distinct on the PK within the batch. -/
theorem pk_uniqueness_invariant :
    (∀ st, Reachable st → ∀ n t pk,
      alistGet st.catalog.tables n = some t →
      primary_key_column t = some pk →
      List.Pairwise (pkNe pk) (scan_active (getHeap st n).log)) ∧
    (∀ (t : TableMeta) (existing news : List Row) (excl : List Int)
        (pk : String) (kept : List Row),
      enforce_constraints_batch t existing news excl = Except.ok () →
      primary_key_column t = some pk →
      keptRows excl existing = Except.ok kept →
      (∀ nr ∈ news, pyMem (rowGet nr pk) (kept.map (fun x => rowGet x pk)) = false) ∧
      List.Pairwise (fun a b => pyEqO (rowGet a pk) (rowGet b pk) = false) news) := by
  constructor
  · intro st h n t pk hg hpk
    exact (reachable_inv st h).1 n t pk hg hpk
  · intro t existing news excl pk kept henf hpk hkept
    rcases enforce_ok_pk_parts t existing news excl pk henf hpk with ⟨kept2, hk2, hchk⟩
    have hke : kept = kept2 := by
      have h0 := hkept.symm.trans hk2
      injection h0
    subst hke
    have hfacts := checkPkList_ok_facts t.name pk _ news [] hchk
    exact ⟨fun nr hnr => (hfacts.1 nr hnr).1, hfacts.2⟩

/-- CREATE TABLE t (id INTEGER PRIMARY KEY), then INSERT 1 — the witness
state. -/
def c2s1 : Stmt := Stmt.createTable "t" [⟨"id", ⟨"INTEGER", []⟩, false, false, true⟩]

def c2st1 : DBState := (execute initState c2s1).1

def c2s2 : Stmt := Stmt.insert "t" ["id"] [Value.int 1]

def c2st2 : DBState := (execute c2st1 c2s2).1

def c2news : List Row := [[("id", some (Value.int 2))]]

theorem pk_uniqueness_invariant_witness :
    List.Pairwise (pkNe "id") (scan_active (getHeap c2st2 "t").log) ∧
    List.Pairwise (fun a b => pyEqO (rowGet a "id") (rowGet b "id") = false) c2news :=
  ⟨pk_uniqueness_invariant.1 c2st2
      (Reachable.step
        (Reachable.step Reachable.init
          (rfl : execute initState c2s1 =
            (c2st1, Except.ok (ExecResult.cmd ⟨0, "Table created: t"⟩))))
        (rfl : execute c2st1 c2s2 =
          (c2st2, Except.ok (ExecResult.cmd ⟨1, "1 row inserted"⟩))))
      "t" ⟨"t", [⟨"id", ⟨"INTEGER", []⟩, false, false, true⟩], []⟩ "id" rfl rfl,
   (pk_uniqueness_invariant.2 ⟨"t", [⟨"id", ⟨"INTEGER", []⟩, false, false, true⟩], []⟩
      [] c2news [] "id" [] rfl rfl rfl).2⟩

/-! ## Claim C8 — catalog persistence (`Catalog.save` / `Catalog.load`)

`save` serializes the catalog to `catalog.json`; `load` parses it back.  We
model the parsed JSON document as `CatalogDoc`.  `json.dumps(sort_keys=True)`
writes object keys sorted, so a disk round-trip reorders dict keys; Python
dict equality (`==`, what the claim's "equal catalog" means) ignores order,
and every consumer looks keys up, so the document here keeps the original
order and the round-trip statement is up to key-lookup equivalence. -/

structure ColumnJson where
  name : String
  typName : String
  params : List Int
  not_null : Bool
  unique : Bool
  primary_key : Bool
deriving DecidableEq, Repr

structure IndexJson where
  table_name : String
  column_name : String
deriving DecidableEq, Repr

structure TableJson where
  columns : List ColumnJson
  indexes : List (String × IndexJson)
deriving DecidableEq, Repr

structure CatalogDoc where
  version : Int
  tables : List (String × TableJson)
  indexes : List (String × IndexJson)
deriving DecidableEq, Repr

/-- `col_to_dict` in `Catalog.save`. -/
def col_to_doc (c : ColumnDef) : ColumnJson :=
  ⟨c.name, c.typ.name, c.typ.params, c.not_null, c.unique, c.primary_key⟩

def idx_to_doc (m : IndexMeta) : IndexJson := ⟨m.table_name, m.column_name⟩

/-- `Catalog.save`: the document written to `catalog.json`. -/
def catalogSave (cat : Catalog) : CatalogDoc :=
  ⟨cat.version,
   cat.tables.map (fun p =>
     (p.1, ⟨p.2.columns.map col_to_doc,
            p.2.indexes.map (fun q => (q.1, idx_to_doc q.2))⟩)),
   cat.indexes.map (fun q => (q.1, idx_to_doc q.2))⟩

/-- A column as rebuilt by `Catalog.load`. -/
def loadColumn (c : ColumnJson) : ColumnDef :=
  ⟨c.name, ⟨c.typName, c.params⟩, c.not_null, c.unique, c.primary_key⟩

/-- The per-table index loop of `Catalog.load`: builds `t_indexes` and
extends the global `indexes` dict with the same `IndexMeta` objects. -/
def loadTableIndexes :
    List (String × IndexJson) → List (String × IndexMeta) → List (String × IndexMeta) →
    List (String × IndexMeta) × List (String × IndexMeta)
  | [], ti, gi => (ti, gi)
  | q :: rest, ti, gi =>
      loadTableIndexes rest
        (alistSet ti q.1 ⟨q.1, q.2.table_name, q.2.column_name⟩)
        (alistSet gi q.1 ⟨q.1, q.2.table_name, q.2.column_name⟩)

/-- The table loop of `Catalog.load`. -/
def loadTablesAux :
    List (String × TableJson) → List (String × TableMeta) → List (String × IndexMeta) →
    List (String × TableMeta) × List (String × IndexMeta)
  | [], ts, gi => (ts, gi)
  | p :: rest, ts, gi =>
      let r := loadTableIndexes p.2.indexes [] gi
      loadTablesAux rest
        (alistSet ts p.1 ⟨p.1, p.2.columns.map loadColumn, r.1⟩) r.2

/-- The trailing merge of `Catalog.load`: raw global entries not already
collected from the per-table maps. -/
def mergeGlobal :
    List (String × IndexJson) → List (String × IndexMeta) → List (String × IndexMeta)
  | [], gi => gi
  | q :: rest, gi =>
      if alistHas gi q.1 then mergeGlobal rest gi
      else mergeGlobal rest (alistSet gi q.1 ⟨q.1, q.2.table_name, q.2.column_name⟩)

/-- `Catalog.load` applied to a parsed document. -/
def catalogLoad (doc : CatalogDoc) : Catalog :=
  let r := loadTablesAux doc.tables [] []
  ⟨doc.version, r.1, mergeGlobal doc.indexes r.2⟩

/-- The data-model invariants of §3 carried by every engine-built catalog:
each `TableMeta` / `IndexMeta` records its own dict key as its name, dict
keys are distinct, and each per-table index map agrees with the global map. -/
def CatalogWF (cat : Catalog) : Prop :=
  (∀ p ∈ cat.tables, p.2.name = p.1) ∧
  (cat.tables.map Prod.fst).Nodup ∧
  (∀ p ∈ cat.tables, (p.2.indexes.map Prod.fst).Nodup) ∧
  (∀ p ∈ cat.tables, ∀ q ∈ p.2.indexes, q.2.name = q.1) ∧
  (∀ p ∈ cat.tables, ∀ q ∈ p.2.indexes, alistGet cat.indexes q.1 = some q.2) ∧
  (∀ q ∈ cat.indexes, q.2.name = q.1)

/-- Python `==` on tables: same name, same column list, same index map. -/
def tableEquiv (t₁ t₂ : TableMeta) : Prop :=
  t₁.name = t₂.name ∧ t₁.columns = t₂.columns ∧
  ∀ i, alistGet t₁.indexes i = alistGet t₂.indexes i

/-- Python `==` on catalogs: same version, same table map, same index map. -/
def catEquiv (c₁ c₂ : Catalog) : Prop :=
  c₁.version = c₂.version ∧
  (∀ n, (match alistGet c₁.tables n, alistGet c₂.tables n with
    | none, none => True
    | some t₁, some t₂ => tableEquiv t₁ t₂
    | _, _ => False)) ∧
  (∀ i, alistGet c₁.indexes i = alistGet c₂.indexes i)

section AlistRoundtrip
variable {β : Type}

theorem alistGet_mem (l : List (String × β)) (k : String) (v : β)
    (h : alistGet l k = some v) : (k, v) ∈ l := by
  induction l with
  | nil => cases h
  | cons p l ih =>
      rw [alistGet] at h
      by_cases hp : p.1 = k
      · rw [if_pos hp] at h
        injection h with h2
        exact List.mem_cons.2 (Or.inl (by rw [← hp, ← h2]))
      · rw [if_neg hp] at h
        exact List.mem_cons.2 (Or.inr (ih h))

theorem alistHas_iff_mem_keys (l : List (String × β)) (k : String) :
    alistHas l k = true ↔ k ∈ l.map Prod.fst := by
  induction l with
  | nil => simp [alistHas, alistGet]
  | cons p l ih =>
      by_cases hp : p.1 = k
      · simp [alistHas, alistGet, hp]
      · rw [alistHas, alistGet, if_neg hp]
        show alistHas l k = true ↔ _
        rw [List.map_cons, List.mem_cons, ih]
        constructor
        · intro h; exact Or.inr h
        · intro h
          cases h with
          | inl h => exact absurd h.symm hp
          | inr h => exact h

theorem alistGet_eq_find? (l : List (String × β)) (k : String) :
    alistGet l k = (l.find? (fun p => p.1 == k)).map Prod.snd := by
  induction l with
  | nil => rfl
  | cons p l ih =>
      rw [alistGet]
      by_cases hp : p.1 = k
      · rw [if_pos hp, List.find?_cons_of_pos _ (by simpa using hp)]
        rfl
      · rw [if_neg hp, List.find?_cons_of_neg _ (by simpa using hp), ih]

theorem alistGet_map_val {γ : Type} (f : β → γ) (l : List (String × β)) (k : String) :
    alistGet (l.map (fun q => (q.1, f q.2))) k = (alistGet l k).map f := by
  induction l with
  | nil => rfl
  | cons p l ih =>
      by_cases hp : p.1 = k
      · simp [alistGet, hp]
      · simp [alistGet, hp, ih]

theorem alistSet_of_not_has (l : List (String × β)) (k : String) (v : β)
    (h : alistHas l k = false) : alistSet l k v = l ++ [(k, v)] := by
  rw [alistSet, if_neg (by simp [h])]

theorem mem_alistOverwrite (l : List (String × β)) (k : String) (v : β) (p : String × β)
    (h : p ∈ alistOverwrite l k v) : p ∈ l ∨ p = (k, v) := by
  induction l with
  | nil => cases h
  | cons q l ih =>
      rw [alistOverwrite] at h
      rcases List.mem_cons.1 h with h1 | h1
      · by_cases hq : q.1 = k
        · rw [if_pos hq] at h1; exact Or.inr h1
        · rw [if_neg hq] at h1; exact Or.inl (List.mem_cons.2 (Or.inl h1))
      · rcases ih h1 with h2 | h2
        · exact Or.inl (List.mem_cons.2 (Or.inr h2))
        · exact Or.inr h2

theorem mem_alistSet (l : List (String × β)) (k : String) (v : β) (p : String × β)
    (h : p ∈ alistSet l k v) : p ∈ l ∨ p = (k, v) := by
  rw [alistSet] at h
  by_cases hk : alistHas l k = true
  · rw [if_pos hk] at h; exact mem_alistOverwrite l k v p h
  · rw [if_neg hk] at h
    rcases List.mem_append.1 h with h1 | h1
    · exact Or.inl h1
    · exact Or.inr (by simpa using h1)

theorem alistOverwrite_keys (l : List (String × β)) (k : String) (v : β) :
    (alistOverwrite l k v).map Prod.fst = l.map Prod.fst := by
  induction l with
  | nil => rfl
  | cons q l ih =>
      rw [alistOverwrite, List.map_cons, List.map_cons, ih]
      by_cases hq : q.1 = k
      · rw [if_pos hq]
        show k :: _ = q.1 :: _
        rw [hq]
      · rw [if_neg hq]

theorem alistSet_keys_of_has (l : List (String × β)) (k : String) (v : β)
    (h : alistHas l k = true) : (alistSet l k v).map Prod.fst = l.map Prod.fst := by
  rw [alistSet, if_pos h]
  exact alistOverwrite_keys l k v

/-- Lookup in a dict rebuilt by assigning `F q` under each key of `es` in
order: with distinct keys, the first (= only) entry for the key wins. -/
theorem alistGet_foldl_setF {γ : Type} (F : String × γ → β) :
    ∀ (es : List (String × γ)) (init : List (String × β)) (k : String),
    (es.map Prod.fst).Nodup →
    alistGet (es.foldl (fun acc q => alistSet acc q.1 (F q)) init) k =
      match es.find? (fun q => q.1 == k) with
      | some q => some (F q)
      | none => alistGet init k := by
  intro es
  induction es with
  | nil => intro init k _; rfl
  | cons q es ih =>
      intro init k hnd
      rw [List.map_cons, List.nodup_cons] at hnd
      rw [List.foldl_cons]
      by_cases hq : q.1 = k
      · rw [List.find?_cons_of_pos _ (by simpa using hq)]
        have hnone : es.find? (fun q2 => q2.1 == k) = none := by
          rw [List.find?_eq_none]
          intro x hx
          simp only [beq_iff_eq]
          intro hxk
          have hmem : x.1 ∈ es.map Prod.fst := List.mem_map_of_mem Prod.fst hx
          rw [hxk, ← hq] at hmem
          exact hnd.1 hmem
        have hL := ih (alistSet init q.1 (F q)) k hnd.2
        rw [hnone] at hL
        have hL2 : alistGet (es.foldl (fun acc q2 => alistSet acc q2.1 (F q2))
            (alistSet init q.1 (F q))) k = alistGet (alistSet init q.1 (F q)) k := hL
        rw [hL2, alistGet_alistSet, if_pos hq]
      · rw [List.find?_cons_of_neg _ (by simp [hq])]
        have hL := ih (alistSet init q.1 (F q)) k hnd.2
        rw [hL]
        cases hf : es.find? (fun q2 => q2.1 == k) with
        | some q2 => rfl
        | none =>
            show alistGet (alistSet init q.1 (F q)) k = alistGet init k
            rw [alistGet_alistSet, if_neg hq]

/-- The special case rebuilding a dict from its own entries. -/
theorem alistGet_foldl_set_snd (es : List (String × β)) (init : List (String × β))
    (k : String) (hnd : (es.map Prod.fst).Nodup) :
    alistGet (es.foldl (fun acc q => alistSet acc q.1 q.2) init) k =
      match es.find? (fun q => q.1 == k) with
      | some q => some q.2
      | none => alistGet init k := by
  have h := alistGet_foldl_setF (Prod.snd) es init k hnd
  exact h

end AlistRoundtrip

/-- Per-table index map as rebuilt by `load` (independent of the global dict). -/
def tiOf (es : List (String × IndexJson)) : List (String × IndexMeta) :=
  es.foldl (fun acc q => alistSet acc q.1 ⟨q.1, q.2.table_name, q.2.column_name⟩) []

theorem loadTableIndexes_fst :
    ∀ (es : List (String × IndexJson)) (ti gi : List (String × IndexMeta)),
    (loadTableIndexes es ti gi).1 =
      es.foldl (fun acc q => alistSet acc q.1 ⟨q.1, q.2.table_name, q.2.column_name⟩) ti := by
  intro es
  induction es with
  | nil => intro ti gi; rfl
  | cons q es ih =>
      intro ti gi
      rw [loadTableIndexes, List.foldl_cons]
      exact ih _ _

/-- Lookup in the table dict built by `load`'s main loop. -/
theorem loadedTables_get :
    ∀ (ds : List (String × TableJson)) (ts : List (String × TableMeta))
      (gi : List (String × IndexMeta)),
    (ds.map Prod.fst).Nodup →
    ∀ n, alistGet (loadTablesAux ds ts gi).1 n =
      match ds.find? (fun p => p.1 == n) with
      | some p => some (⟨p.1, p.2.columns.map loadColumn, tiOf p.2.indexes⟩ : TableMeta)
      | none => alistGet ts n := by
  intro ds
  induction ds with
  | nil => intro ts gi _ n; rfl
  | cons p ds ih =>
      intro ts gi hnd n
      rw [List.map_cons, List.nodup_cons] at hnd
      rw [loadTablesAux]
      have hti : (loadTableIndexes p.2.indexes [] gi).1 = tiOf p.2.indexes :=
        loadTableIndexes_fst p.2.indexes [] gi
      rw [hti]
      by_cases hp : p.1 = n
      · rw [List.find?_cons_of_pos _ (by simpa using hp)]
        have hnone : ds.find? (fun p2 => p2.1 == n) = none := by
          rw [List.find?_eq_none]
          intro x hx
          simp only [beq_iff_eq]
          intro hxn
          have hmem : x.1 ∈ ds.map Prod.fst := List.mem_map_of_mem Prod.fst hx
          rw [hxn, ← hp] at hmem
          exact hnd.1 hmem
        have hL := ih (alistSet ts p.1 ⟨p.1, p.2.columns.map loadColumn, tiOf p.2.indexes⟩)
          (loadTableIndexes p.2.indexes [] gi).2 hnd.2 n
        rw [hnone] at hL
        have hL2 : alistGet (loadTablesAux ds
            (alistSet ts p.1 ⟨p.1, p.2.columns.map loadColumn, tiOf p.2.indexes⟩)
            (loadTableIndexes p.2.indexes [] gi).2).1 n =
            alistGet (alistSet ts p.1 ⟨p.1, p.2.columns.map loadColumn, tiOf p.2.indexes⟩) n := hL
        rw [hL2, alistGet_alistSet, if_pos hp]
      · rw [List.find?_cons_of_neg _ (by simp [hp])]
        have hL := ih (alistSet ts p.1 ⟨p.1, p.2.columns.map loadColumn, tiOf p.2.indexes⟩)
          (loadTableIndexes p.2.indexes [] gi).2 hnd.2 n
        rw [hL]
        cases hf : ds.find? (fun p2 => p2.1 == n) with
        | some p2 => rfl
        | none =>
            show alistGet (alistSet ts p.1 ⟨p.1, p.2.columns.map loadColumn, tiOf p.2.indexes⟩) n =
              alistGet ts n
            rw [alistGet_alistSet, if_neg hp]

/-- Rebuilding the per-table index dict from its saved form gives back the
original entries (the stored `IndexMeta` names coincide with their keys). -/
theorem tiOf_rebuild :
    ∀ (l : List (String × IndexMeta)), (∀ q ∈ l, q.2.name = q.1) →
    ∀ init, (l.map (fun q => (q.1, idx_to_doc q.2))).foldl
        (fun acc q => alistSet acc q.1 ⟨q.1, q.2.table_name, q.2.column_name⟩) init =
      l.foldl (fun acc q => alistSet acc q.1 q.2) init := by
  intro l
  induction l with
  | nil => intro _ init; rfl
  | cons q l ih =>
      intro hname init
      rw [List.map_cons, List.foldl_cons, List.foldl_cons]
      show (l.map (fun q2 => (q2.1, idx_to_doc q2.2))).foldl
          (fun acc q2 => alistSet acc q2.1 ⟨q2.1, q2.2.table_name, q2.2.column_name⟩)
          (alistSet init q.1 ⟨q.1, q.2.table_name, q.2.column_name⟩) =
        l.foldl (fun acc q2 => alistSet acc q2.1 q2.2) (alistSet init q.1 q.2)
      have h1 : q.2.name = q.1 := hname q (List.mem_cons_self q l)
      have h2 : (⟨q.1, q.2.table_name, q.2.column_name⟩ : IndexMeta) = q.2 := by rw [← h1]
      rw [h2]
      exact ih (fun q2 hq2 => hname q2 (List.mem_cons_of_mem q hq2)) _

/-- The trailing merge never disturbs an existing global binding. -/
theorem mergeGlobal_preserve :
    ∀ (raw : List (String × IndexJson)) (gi : List (String × IndexMeta))
      (k : String) (v : IndexMeta),
    alistGet gi k = some v → alistGet (mergeGlobal raw gi) k = some v := by
  intro raw
  induction raw with
  | nil => intro gi k v h; exact h
  | cons q raw ih =>
      intro gi k v h
      rw [mergeGlobal]
      by_cases hq : alistHas gi q.1 = true
      · rw [if_pos hq]; exact ih gi k v h
      · rw [if_neg hq]
        apply ih
        rw [alistGet_alistSet]
        by_cases hqk : q.1 = k
        · exfalso
          rw [hqk] at hq
          exact hq (by rw [alistHas, h]; rfl)
        · rw [if_neg hqk]; exact h

/-- For keys the per-table pass missed, the merge installs the raw entry
(under its dict key as its name). -/
theorem mergeGlobal_new :
    ∀ (raw : List (String × IndexJson)) (gi : List (String × IndexMeta)) (k : String),
    alistGet gi k = none →
    alistGet (mergeGlobal raw gi) k =
      match alistGet raw k with
      | some j => some (⟨k, j.table_name, j.column_name⟩ : IndexMeta)
      | none => none := by
  intro raw
  induction raw with
  | nil => intro gi k h; exact h
  | cons q raw ih =>
      intro gi k h
      rw [mergeGlobal]
      by_cases hq : alistHas gi q.1 = true
      · rw [if_pos hq]
        by_cases hqk : q.1 = k
        · exfalso
          rw [hqk, alistHas, h] at hq
          simp at hq
        · rw [ih gi k h, alistGet, if_neg hqk]
      · rw [if_neg hq]
        by_cases hqk : q.1 = k
        · have hset : alistGet (alistSet gi q.1 ⟨q.1, q.2.table_name, q.2.column_name⟩) k =
              some ⟨q.1, q.2.table_name, q.2.column_name⟩ := by
            rw [alistGet_alistSet, if_pos hqk]
          rw [mergeGlobal_preserve raw _ k _ hset, alistGet, if_pos hqk, hqk]
        · have hset : alistGet (alistSet gi q.1 ⟨q.1, q.2.table_name, q.2.column_name⟩) k =
              none := by
            rw [alistGet_alistSet, if_neg hqk]; exact h
          rw [ih _ k hset, alistGet, if_neg hqk]

/-- Every binding collected from a table's saved index dict already appears,
with the same value, in the target (original global) dict. -/
theorem loadTableIndexes_snd_sub (tgt : List (String × IndexMeta)) :
    ∀ (es : List (String × IndexJson)) (ti gi : List (String × IndexMeta)),
    (∀ q ∈ es, alistGet tgt q.1 = some ⟨q.1, q.2.table_name, q.2.column_name⟩) →
    (∀ k v, alistGet gi k = some v → alistGet tgt k = some v) →
    (∀ k v, alistGet (loadTableIndexes es ti gi).2 k = some v → alistGet tgt k = some v) := by
  intro es
  induction es with
  | nil => intro ti gi _ hsub; exact hsub
  | cons q es ih =>
      intro ti gi hes hsub
      rw [loadTableIndexes]
      apply ih
      · intro q2 hq2; exact hes q2 (List.mem_cons_of_mem q hq2)
      · intro k v hk
        rw [alistGet_alistSet] at hk
        by_cases hqk : q.1 = k
        · rw [if_pos hqk] at hk
          injection hk with hv
          rw [← hv, ← hqk]
          exact hes q (List.mem_cons_self q es)
        · rw [if_neg hqk] at hk
          exact hsub k v hk

theorem loadTablesAux_snd_sub (tgt : List (String × IndexMeta)) :
    ∀ (ds : List (String × TableJson)) (ts : List (String × TableMeta))
      (gi : List (String × IndexMeta)),
    (∀ p ∈ ds, ∀ q ∈ p.2.indexes,
      alistGet tgt q.1 = some ⟨q.1, q.2.table_name, q.2.column_name⟩) →
    (∀ k v, alistGet gi k = some v → alistGet tgt k = some v) →
    (∀ k v, alistGet (loadTablesAux ds ts gi).2 k = some v → alistGet tgt k = some v) := by
  intro ds
  induction ds with
  | nil => intro ts gi _ hsub; exact hsub
  | cons p ds ih =>
      intro ts gi hds hsub
      rw [loadTablesAux]
      apply ih
      · intro p2 hp2; exact hds p2 (List.mem_cons_of_mem p hp2)
      · exact loadTableIndexes_snd_sub tgt p.2.indexes [] gi
          (hds p (List.mem_cons_self p ds)) hsub

theorem loadColumn_col_to_doc (c : ColumnDef) : loadColumn (col_to_doc c) = c := rfl

/-- Round trip: loading the saved document reproduces the catalog up to
Python `==` on its dicts, given the §3 data-model invariants. -/
theorem catalogLoad_save_equiv (cat : Catalog) (hwf : CatalogWF cat) :
    catEquiv (catalogLoad (catalogSave cat)) cat := by
  obtain ⟨w1, w2, w3, w4, w5, w6⟩ := hwf
  have hkeys : ((catalogSave cat).tables).map Prod.fst = cat.tables.map Prod.fst := by
    show ((cat.tables.map _).map Prod.fst) = _
    rw [List.map_map]
    rfl
  have hnd : (((catalogSave cat).tables).map Prod.fst).Nodup := by
    rw [hkeys]; exact w2
  refine ⟨rfl, ?_, ?_⟩
  · intro n
    have hL := loadedTables_get (catalogSave cat).tables [] [] hnd n
    have hfind : (catalogSave cat).tables.find? (fun p => p.1 == n) =
        (cat.tables.find? (fun p => p.1 == n)).map
          (fun p => (p.1, (⟨p.2.columns.map col_to_doc,
            p.2.indexes.map (fun q => (q.1, idx_to_doc q.2))⟩ : TableJson))) := by
      show (cat.tables.map _).find? _ = _
      rw [List.find?_map]
      rfl
    have hL2 : alistGet (catalogLoad (catalogSave cat)).tables n =
        match (catalogSave cat).tables.find? (fun p => p.1 == n) with
        | some p => some (⟨p.1, p.2.columns.map loadColumn, tiOf p.2.indexes⟩ : TableMeta)
        | none => none := hL
    rw [hL2, hfind, alistGet_eq_find? cat.tables n]
    cases hf : cat.tables.find? (fun p => p.1 == n) with
    | none => exact trivial
    | some p =>
        show tableEquiv
          ⟨p.1, (p.2.columns.map col_to_doc).map loadColumn,
            tiOf (p.2.indexes.map (fun q => (q.1, idx_to_doc q.2)))⟩ p.2
        have hmem : p ∈ cat.tables := List.mem_of_find?_eq_some hf
        have hpn : p.2.name = p.1 := w1 p hmem
        refine ⟨hpn.symm, ?_, ?_⟩
        · rw [List.map_map]
          have hid : (loadColumn ∘ col_to_doc) = id := funext fun c => rfl
          rw [hid, List.map_id]
        · intro i
          have hrw := tiOf_rebuild p.2.indexes (w4 p hmem) []
          have hL3 : alistGet (tiOf (p.2.indexes.map (fun q => (q.1, idx_to_doc q.2)))) i =
              alistGet (p.2.indexes.foldl (fun acc q => alistSet acc q.1 q.2) []) i := by
            show alistGet ((p.2.indexes.map (fun q => (q.1, idx_to_doc q.2))).foldl
              (fun acc q => alistSet acc q.1
                (⟨q.1, q.2.table_name, q.2.column_name⟩ : IndexMeta)) []) i = _
            rw [hrw]
          rw [hL3, alistGet_foldl_set_snd p.2.indexes [] i (w3 p hmem),
            alistGet_eq_find? p.2.indexes i]
          cases p.2.indexes.find? (fun q => q.1 == i) with
          | none => rfl
          | some q => rfl
  · intro i
    have hsub : ∀ k v,
        alistGet ((loadTablesAux (catalogSave cat).tables [] []).2) k = some v →
        alistGet cat.indexes k = some v := by
      apply loadTablesAux_snd_sub
      · intro p hp q hq
        rcases List.mem_map.1 hp with ⟨p0, hp0, hpe⟩
        rw [← hpe] at hq
        rcases List.mem_map.1 hq with ⟨q0, hq0, hqe⟩
        rw [← hqe]
        show alistGet cat.indexes q0.1 =
          some (⟨q0.1, q0.2.table_name, q0.2.column_name⟩ : IndexMeta)
        have h4 : q0.2.name = q0.1 := w4 p0 hp0 q0 hq0
        have h42 : (⟨q0.1, q0.2.table_name, q0.2.column_name⟩ : IndexMeta) = q0.2 := by
          rw [← h4]
        rw [h42]
        exact w5 p0 hp0 q0 hq0
      · intro k v h; cases h
    have hload : alistGet (catalogLoad (catalogSave cat)).indexes i =
        alistGet (mergeGlobal (catalogSave cat).indexes
          ((loadTablesAux (catalogSave cat).tables [] []).2)) i := rfl
    rw [hload]
    cases hgi : alistGet ((loadTablesAux (catalogSave cat).tables [] []).2) i with
    | some v =>
        rw [mergeGlobal_preserve _ _ i v hgi]
        exact (hsub i v hgi).symm
    | none =>
        rw [mergeGlobal_new _ _ i hgi]
        have hmap : alistGet ((catalogSave cat).indexes) i =
            (alistGet cat.indexes i).map idx_to_doc := by
          show alistGet (cat.indexes.map (fun q => (q.1, idx_to_doc q.2))) i = _
          exact alistGet_map_val idx_to_doc cat.indexes i
        rw [hmap]
        cases hg : alistGet cat.indexes i with
        | none => rfl
        | some m =>
            have hmem := alistGet_mem cat.indexes i m hg
            have h6 : m.name = i := w6 (i, m) hmem
            show some (⟨i, m.table_name, m.column_name⟩ : IndexMeta) = some m
            rw [← h6]

theorem execCreateIndex_ok_validate (st : DBState) (iname tname cname : String)
    (st' : DBState) (r : ExecResult)
    (hx : execCreateIndex st iname tname cname = (st', Except.ok r)) :
    validate_create_index st.catalog iname tname cname = Except.ok () := by
  unfold execCreateIndex at hx
  dsimp only at hx
  repeat' split at hx
  all_goals try (exact Except.noConfusion (congrArg Prod.snd hx))
  rename_i x1 a1 hval x0 table hrt
  exact hval

theorem validate_create_index_not_has (cat : Catalog) (iname tname cname : String)
    (h : validate_create_index cat iname tname cname = Except.ok ()) :
    alistHas cat.indexes iname = false := by
  rw [validate_create_index] at h
  by_cases hn : alistHas cat.indexes iname = true
  · rw [if_pos hn] at h; cases h
  · simpa using hn

/-- CREATE TABLE keeps the §3 catalog invariants. -/
theorem wf_createTable (st st' : DBState) (tname : String) (cols : List ColumnDef)
    (r : ExecResult) (hx : execCreateTable st tname cols = (st', Except.ok r))
    (hwf : CatalogWF st.catalog) : CatalogWF st'.catalog := by
  obtain ⟨w1, w2, w3, w4, w5, w6⟩ := hwf
  obtain ⟨hval, hst⟩ := execCreateTable_ok_inv st tname cols st' r hx
  have hnohas : alistHas st.catalog.tables tname = false :=
    validate_create_table_not_exists _ _ _ hval
  have happ : alistSet st.catalog.tables tname ⟨tname, cols, []⟩ =
      st.catalog.tables ++ [(tname, ⟨tname, cols, []⟩)] :=
    alistSet_of_not_has _ _ _ hnohas
  rw [hst]
  refine ⟨?_, ?_, ?_, ?_, ?_, ?_⟩
  · show ∀ p ∈ alistSet st.catalog.tables tname ⟨tname, cols, []⟩, p.2.name = p.1
    rw [happ]
    intro p hp
    rcases List.mem_append.1 hp with h | h
    · exact w1 p h
    · have hpe : p = (tname, ⟨tname, cols, []⟩) := by simpa using h
      rw [hpe]
  · show (List.map Prod.fst (alistSet st.catalog.tables tname ⟨tname, cols, []⟩)).Nodup
    rw [happ, List.map_append]
    apply List.Nodup.append w2
    · show ([tname] : List String).Nodup
      exact List.nodup_singleton tname
    · intro a ha hb
      have hb2 : a = tname := by simpa using hb
      rw [hb2] at ha
      have hh := (alistHas_iff_mem_keys st.catalog.tables tname).2 ha
      rw [hnohas] at hh
      cases hh
  · show ∀ p ∈ alistSet st.catalog.tables tname ⟨tname, cols, []⟩,
      (List.map Prod.fst p.2.indexes).Nodup
    rw [happ]
    intro p hp
    rcases List.mem_append.1 hp with h | h
    · exact w3 p h
    · have hpe : p = (tname, ⟨tname, cols, []⟩) := by simpa using h
      rw [hpe]
      exact List.nodup_nil
  · show ∀ p ∈ alistSet st.catalog.tables tname ⟨tname, cols, []⟩,
      ∀ q ∈ p.2.indexes, q.2.name = q.1
    rw [happ]
    intro p hp q hq
    rcases List.mem_append.1 hp with h | h
    · exact w4 p h q hq
    · have hpe : p = (tname, ⟨tname, cols, []⟩) := by simpa using h
      rw [hpe] at hq
      exact absurd hq (List.not_mem_nil q)
  · show ∀ p ∈ alistSet st.catalog.tables tname ⟨tname, cols, []⟩,
      ∀ q ∈ p.2.indexes, alistGet st.catalog.indexes q.1 = some q.2
    rw [happ]
    intro p hp q hq
    rcases List.mem_append.1 hp with h | h
    · exact w5 p h q hq
    · have hpe : p = (tname, ⟨tname, cols, []⟩) := by simpa using h
      rw [hpe] at hq
      exact absurd hq (List.not_mem_nil q)
  · show ∀ q ∈ st.catalog.indexes, q.2.name = q.1
    exact w6

/-- CREATE INDEX keeps the §3 catalog invariants. -/
theorem wf_createIndex (st st' : DBState) (iname tname cname : String)
    (r : ExecResult) (hx : execCreateIndex st iname tname cname = (st', Except.ok r))
    (hwf : CatalogWF st.catalog) : CatalogWF st'.catalog := by
  obtain ⟨w1, w2, w3, w4, w5, w6⟩ := hwf
  obtain ⟨table, hgt, hst⟩ := execCreateIndex_ok_inv st iname tname cname st' r hx
  have hval := execCreateIndex_ok_validate st iname tname cname st' r hx
  have hni : alistHas st.catalog.indexes iname = false :=
    validate_create_index_not_has _ _ _ _ hval
  have htmem : (tname, table) ∈ st.catalog.tables := alistGet_mem _ _ _ hgt
  have htn : table.name = tname := w1 (tname, table) htmem
  have hqne : ∀ p ∈ st.catalog.tables, ∀ q ∈ p.2.indexes, ¬iname = q.1 := by
    intro p hp q hq hiq
    have h5 := w5 p hp q hq
    rw [← hiq] at h5
    rw [alistHas, h5] at hni
    simp at hni
  have hiNotTable : alistHas table.indexes iname = false := by
    by_cases hh : alistHas table.indexes iname = true
    · exfalso
      rw [alistHas] at hh
      cases hm : alistGet table.indexes iname with
      | none => rw [hm] at hh; simp at hh
      | some m =>
          have hmm : (iname, m) ∈ table.indexes := alistGet_mem _ _ _ hm
          exact hqne (tname, table) htmem (iname, m) hmm rfl
    · simpa using hh
  have happT : alistSet table.indexes iname ⟨iname, tname, cname⟩ =
      table.indexes ++ [(iname, ⟨iname, tname, cname⟩)] :=
    alistSet_of_not_has _ _ _ hiNotTable
  have hhasT : alistHas st.catalog.tables tname = true := by
    rw [alistHas, hgt]; rfl
  rw [hst]
  refine ⟨?_, ?_, ?_, ?_, ?_, ?_⟩
  · show ∀ p ∈ alistSet st.catalog.tables tname
        { table with indexes := alistSet table.indexes iname ⟨iname, tname, cname⟩ },
      p.2.name = p.1
    intro p hp
    rcases mem_alistSet _ _ _ p hp with h | h
    · exact w1 p h
    · rw [h]
      exact htn
  · show (List.map Prod.fst (alistSet st.catalog.tables tname
      { table with indexes := alistSet table.indexes iname ⟨iname, tname, cname⟩ })).Nodup
    rw [alistSet_keys_of_has _ _ _ hhasT]
    exact w2
  · show ∀ p ∈ alistSet st.catalog.tables tname
        { table with indexes := alistSet table.indexes iname ⟨iname, tname, cname⟩ },
      (List.map Prod.fst p.2.indexes).Nodup
    intro p hp
    rcases mem_alistSet _ _ _ p hp with h | h
    · exact w3 p h
    · rw [h]
      show (List.map Prod.fst (alistSet table.indexes iname ⟨iname, tname, cname⟩)).Nodup
      rw [happT, List.map_append]
      apply List.Nodup.append (w3 (tname, table) htmem)
      · show ([iname] : List String).Nodup
        exact List.nodup_singleton iname
      · intro a ha hb
        have hb2 : a = iname := by simpa using hb
        rw [hb2] at ha
        have hh := (alistHas_iff_mem_keys table.indexes iname).2 ha
        rw [hiNotTable] at hh
        cases hh
  · show ∀ p ∈ alistSet st.catalog.tables tname
        { table with indexes := alistSet table.indexes iname ⟨iname, tname, cname⟩ },
      ∀ q ∈ p.2.indexes, q.2.name = q.1
    intro p hp q hq
    rcases mem_alistSet _ _ _ p hp with h | h
    · exact w4 p h q hq
    · rw [h] at hq
      have hq2 : q ∈ alistSet table.indexes iname ⟨iname, tname, cname⟩ := hq
      rw [happT] at hq2
      rcases List.mem_append.1 hq2 with h2 | h2
      · exact w4 (tname, table) htmem q h2
      · have hqe : q = (iname, ⟨iname, tname, cname⟩) := by simpa using h2
        rw [hqe]
  · show ∀ p ∈ alistSet st.catalog.tables tname
        { table with indexes := alistSet table.indexes iname ⟨iname, tname, cname⟩ },
      ∀ q ∈ p.2.indexes,
        alistGet (alistSet st.catalog.indexes iname ⟨iname, tname, cname⟩) q.1 = some q.2
    intro p hp q hq
    rcases mem_alistSet _ _ _ p hp with h | h
    · have hne : ¬iname = q.1 := hqne p h q hq
      rw [alistGet_alistSet, if_neg hne]
      exact w5 p h q hq
    · rw [h] at hq
      have hq2 : q ∈ alistSet table.indexes iname ⟨iname, tname, cname⟩ := hq
      rw [happT] at hq2
      rcases List.mem_append.1 hq2 with h2 | h2
      · have hne : ¬iname = q.1 := hqne (tname, table) htmem q h2
        rw [alistGet_alistSet, if_neg hne]
        exact w5 (tname, table) htmem q h2
      · have hqe : q = (iname, ⟨iname, tname, cname⟩) := by simpa using h2
        rw [hqe]
        show alistGet (alistSet st.catalog.indexes iname ⟨iname, tname, cname⟩) iname =
          some ⟨iname, tname, cname⟩
        rw [alistGet_alistSet, if_pos rfl]
  · show ∀ q ∈ alistSet st.catalog.indexes iname ⟨iname, tname, cname⟩, q.2.name = q.1
    intro q hq
    rcases mem_alistSet _ _ _ q hq with h | h
    · exact w6 q h
    · rw [h]

/-- Every successful statement keeps the catalog invariants (DML leaves the
catalog untouched; DDL was shown above). -/
theorem wf_execute (st st' : DBState) (s : Stmt) (r : ExecResult)
    (hx : execute st s = (st', Except.ok r))
    (hwf : CatalogWF st.catalog) : CatalogWF st'.catalog := by
  cases s with
  | createTable n cols => exact wf_createTable st st' n cols r hx hwf
  | createIndex i t c => exact wf_createIndex st st' i t c r hx hwf
  | insert t cols vals =>
      obtain ⟨table, _, _, hst⟩ := execInsert_ok_inv st t cols vals st' r hx
      rw [hst, setHeap_catalog]
      exact hwf
  | select c f j w =>
      have h1 : (execSelect st c f j w).1 = st' := congrArg Prod.fst hx
      rw [execSelect_fst] at h1
      rw [← h1]
      exact hwf
  | update t a w =>
      rcases execUpdate_ok_inv st t a w st' r hx with hst | ⟨table, matched, pairs, _, _, _, _, hst⟩
      · rw [hst]; exact hwf
      · rw [hst, setHeap_catalog]; exact hwf
  | delete t w =>
      obtain ⟨table, matched, h2, _, _, _, hst⟩ := execDelete_ok_inv st t w st' r hx
      rw [hst, setHeap_catalog]
      exact hwf

theorem reachable_catalogWF (st : DBState) (h : Reachable st) : CatalogWF st.catalog := by
  induction h with
  | init =>
      exact ⟨fun p hp => absurd hp (List.not_mem_nil p), List.nodup_nil,
        fun p hp => absurd hp (List.not_mem_nil p),
        fun p hp => absurd hp (List.not_mem_nil p),
        fun p hp => absurd hp (List.not_mem_nil p),
        fun q hq => absurd hq (List.not_mem_nil q)⟩
  | step hr hx ih => exact wf_execute _ _ _ _ hx ih

/-- **C8.** Catalog persistence round-trips: for every catalog satisfying the
§3 data-model invariants (metadata names equal their dict keys, keys are
distinct, per-table and global index maps agree), `Catalog.load` applied to
the document written by `Catalog.save` yields an equal catalog in the Python
`==` sense (same version, key-wise equal table and index dicts; `sort_keys`
only permutes dict keys, which `==` ignores); and every reachable database
state's catalog satisfies those invariants, so in particular the schema
observed after reopening equals the schema after any accepted CREATE. -/
theorem catalog_persistence_roundtrip :
    (∀ cat : Catalog, CatalogWF cat → catEquiv (catalogLoad (catalogSave cat)) cat) ∧
    (∀ st : DBState, Reachable st → CatalogWF st.catalog) :=
  ⟨catalogLoad_save_equiv, reachable_catalogWF⟩

def c8cat : Catalog :=
  ⟨1,
   [("t", ⟨"t", [⟨"id", ⟨"INTEGER", []⟩, false, false, true⟩],
      [("idx_t_id", ⟨"idx_t_id", "t", "id"⟩)]⟩)],
   [("idx_t_id", ⟨"idx_t_id", "t", "id"⟩)]⟩

theorem catalog_persistence_roundtrip_witness :
    catEquiv (catalogLoad (catalogSave c8cat)) c8cat ∧ CatalogWF initState.catalog :=
  ⟨catalog_persistence_roundtrip.1 c8cat (by unfold CatalogWF; decide),
   catalog_persistence_roundtrip.2 initState Reachable.init⟩

/-! ## The lexer (`src/simpledb/lexer.py`) -/

/-- The single-quote character (written by code point to keep it out of
character literals). -/
def quoteChar : Char := Char.ofNat 39

def quoteStr : String := String.mk [quoteChar]

/-- `str.isspace` restricted to ASCII, which is all the SQL the engine sees. -/
def pyIsSpace (c : Char) : Bool :=
  c = ' ' || c = '\t' || c = '\n' || c = '\r' || c = '\x0b' || c = '\x0c'

/-- `str.isdigit` restricted to ASCII. -/
def pyIsDigit (c : Char) : Bool := 48 ≤ c.toNat && c.toNat ≤ 57

/-- `str.isalpha` restricted to ASCII. -/
def pyIsAlpha (c : Char) : Bool :=
  (65 ≤ c.toNat && c.toNat ≤ 90) || (97 ≤ c.toNat && c.toNat ≤ 122)

def pyIsAlnum (c : Char) : Bool := pyIsAlpha c || pyIsDigit c

inductive TokenType where
  | EOF | IDENT | INT | STRING | BOOL
  | LPAREN | RPAREN | COMMA | SEMI | EQ | STAR | DOT
  | CREATE | TABLE | INDEX | INSERT | INTO | VALUES | SELECT | FROM
  | WHERE | AND | UPDATE | SET | DELETE | JOIN | ON
  | PRIMARY | KEY | UNIQUE | NOT | NULL
deriving DecidableEq, Repr

def KEYWORDS : List (String × TokenType) :=
  [("CREATE", .CREATE), ("TABLE", .TABLE), ("INDEX", .INDEX), ("INSERT", .INSERT),
   ("INTO", .INTO), ("VALUES", .VALUES), ("SELECT", .SELECT), ("FROM", .FROM),
   ("WHERE", .WHERE), ("AND", .AND), ("UPDATE", .UPDATE), ("SET", .SET),
   ("DELETE", .DELETE), ("JOIN", .JOIN), ("ON", .ON), ("PRIMARY", .PRIMARY),
   ("KEY", .KEY), ("UNIQUE", .UNIQUE), ("NOT", .NOT), ("NULL", .NULL)]

structure Token where
  typ : TokenType
  lexeme : String
  value : Option Value
  pos : Position
deriving DecidableEq, Repr

/-- `advance(1)`: the next (line, col) after consuming `c`. -/
def stepPos (line col : Nat) (c : Char) : Nat × Nat :=
  if c = '\n' then (line + 1, 1) else (line, col + 1)

/-- `advance(n)` over a run of characters. -/
def advancePos : Nat → Nat → List Char → Nat × Nat
  | line, col, [] => (line, col)
  | line, col, c :: rest => advancePos (stepPos line col c).1 (stepPos line col c).2 rest

/-- The string-literal inner loop: characters collected up to the next
single quote, plus the input after the closing quote; `none` when the input
ends first (`Unterminated string literal`). -/
def takeStringBody : List Char → Option (List Char × List Char)
  | [] => none
  | c :: rest =>
      if c = quoteChar then some ([], rest)
      else match takeStringBody rest with
        | none => none
        | some (body, rem) => some (c :: body, rem)

/-- Python `int()` on a digit string. -/
def digitsToNat (ds : List Char) : Nat :=
  ds.foldl (fun n c => n * 10 + (c.toNat - 48)) 0

/-- Python `repr` of a one-character string with no specials. -/
def charRepr (c : Char) : String := quoteStr ++ String.mk [c] ++ quoteStr

/-- The identifier / keyword / boolean classification of an ident run. -/
def identToken (lex : String) (p : Position) : Token :=
  if pyUpper lex = "TRUE" then ⟨.BOOL, lex, some (.bool true), p⟩
  else if pyUpper lex = "FALSE" then ⟨.BOOL, lex, some (.bool false), p⟩
  else match alistGet KEYWORDS (pyUpper lex) with
    | some tt => ⟨tt, lex, some (.str (pyUpper lex)), p⟩
    | none => ⟨.IDENT, lex, some (.str lex), p⟩

/-- The `tokenize` loop.  Fuel is an embedding artifact for the `while`
loop: every iteration consumes at least one character, so the
`length + 1` supplied by `tokenize` below can never run out. -/
def tokenizeLoop : Nat → List Char → Nat → Nat → Except Err (List Token)
  | 0, _, _, _ => .error (.fatal ("lexer fuel exhausted"))
  | _ + 1, [], line, col => .ok [⟨.EOF, "", none, ⟨line, col⟩⟩]
  | fuel + 1, c :: rest, line, col =>
      if pyIsSpace c then
        tokenizeLoop fuel rest (stepPos line col c).1 (stepPos line col c).2
      else if c = '(' then
        (tokenizeLoop fuel rest (stepPos line col c).1 (stepPos line col c).2).map
          (fun ts => ⟨.LPAREN, "(", none, ⟨line, col⟩⟩ :: ts)
      else if c = ')' then
        (tokenizeLoop fuel rest (stepPos line col c).1 (stepPos line col c).2).map
          (fun ts => ⟨.RPAREN, ")", none, ⟨line, col⟩⟩ :: ts)
      else if c = ',' then
        (tokenizeLoop fuel rest (stepPos line col c).1 (stepPos line col c).2).map
          (fun ts => ⟨.COMMA, ",", none, ⟨line, col⟩⟩ :: ts)
      else if c = ';' then
        (tokenizeLoop fuel rest (stepPos line col c).1 (stepPos line col c).2).map
          (fun ts => ⟨.SEMI, ";", none, ⟨line, col⟩⟩ :: ts)
      else if c = '=' then
        (tokenizeLoop fuel rest (stepPos line col c).1 (stepPos line col c).2).map
          (fun ts => ⟨.EQ, "=", none, ⟨line, col⟩⟩ :: ts)
      else if c = '*' then
        (tokenizeLoop fuel rest (stepPos line col c).1 (stepPos line col c).2).map
          (fun ts => ⟨.STAR, "*", none, ⟨line, col⟩⟩ :: ts)
      else if c = '.' then
        (tokenizeLoop fuel rest (stepPos line col c).1 (stepPos line col c).2).map
          (fun ts => ⟨.DOT, ".", none, ⟨line, col⟩⟩ :: ts)
      else if c = quoteChar then
        match takeStringBody rest with
        | none => .error (.synErr ("Unterminated string literal") (some ⟨line, col⟩))
        | some (body, rem) =>
            (tokenizeLoop fuel rem
                (advancePos (stepPos line col c).1 (stepPos line col c).2
                  (body ++ [quoteChar])).1
                (advancePos (stepPos line col c).1 (stepPos line col c).2
                  (body ++ [quoteChar])).2).map
              (fun ts => ⟨.STRING, quoteStr ++ String.mk body ++ quoteStr,
                some (.str (String.mk body)), ⟨line, col⟩⟩ :: ts)
      else if pyIsDigit c then
        (tokenizeLoop fuel (rest.dropWhile pyIsDigit)
            (advancePos line col (c :: rest.takeWhile pyIsDigit)).1
            (advancePos line col (c :: rest.takeWhile pyIsDigit)).2).map
          (fun ts => ⟨.INT, String.mk (c :: rest.takeWhile pyIsDigit),
            some (.int (Int.ofNat (digitsToNat (c :: rest.takeWhile pyIsDigit)))),
            ⟨line, col⟩⟩ :: ts)
      else if pyIsAlpha c || c = '_' then
        (tokenizeLoop fuel (rest.dropWhile (fun x => pyIsAlnum x || x = '_'))
            (advancePos line col (c :: rest.takeWhile (fun x => pyIsAlnum x || x = '_'))).1
            (advancePos line col (c :: rest.takeWhile (fun x => pyIsAlnum x || x = '_'))).2).map
          (fun ts =>
            identToken (String.mk (c :: rest.takeWhile (fun x => pyIsAlnum x || x = '_')))
              ⟨line, col⟩ :: ts)
      else .error (.synErr ("Unexpected character: " ++ charRepr c) (some ⟨line, col⟩))

/-- `tokenize(sql)`. -/
def tokenize (sql : String) : Except Err (List Token) :=
  tokenizeLoop (sql.data.length + 1) sql.data 1 1

/-! ## Claim C9 -/

theorem takeStringBody_none (l : List Char) (h : quoteChar ∉ l) :
    takeStringBody l = none := by
  induction l with
  | nil => rfl
  | cons c l ih =>
      rw [takeStringBody]
      have hc : ¬c = quoteChar := fun he => h (he ▸ List.mem_cons_self c l)
      rw [if_neg hc, ih (fun hm => h (List.mem_cons_of_mem c hm))]

theorem takeStringBody_split (pre post : List Char) (h : quoteChar ∉ pre) :
    takeStringBody (pre ++ quoteChar :: post) = some (pre, post) := by
  induction pre with
  | nil => rw [List.nil_append, takeStringBody, if_pos rfl]
  | cons c pre ih =>
      rw [List.cons_append, takeStringBody]
      have hc : ¬c = quoteChar := fun he => h (he ▸ List.mem_cons_self c pre)
      rw [if_neg hc, ih (fun hm => h (List.mem_cons_of_mem c hm))]

/-- **C9.** String-literal lexing has no escape syntax: on reaching a single
quote, the token's value is exactly the characters up to the next single
quote and lexing resumes right after it (so a doubled quote yields two
adjacent STRING tokens); with no following quote, lexing fails with
`Unterminated string literal` at the opening quote; and the concrete input
`'a''b'` lexes to STRING "a", STRING "b", EOF — not one literal with a
quote inside. -/
theorem lexer_string_no_escape :
    (∀ (fuel : Nat) (pre post : List Char) (line col : Nat), quoteChar ∉ pre →
      tokenizeLoop (fuel + 1) (quoteChar :: (pre ++ quoteChar :: post)) line col =
        (tokenizeLoop fuel post
            (advancePos (stepPos line col quoteChar).1 (stepPos line col quoteChar).2
              (pre ++ [quoteChar])).1
            (advancePos (stepPos line col quoteChar).1 (stepPos line col quoteChar).2
              (pre ++ [quoteChar])).2).map
          (fun ts => (⟨.STRING, quoteStr ++ String.mk pre ++ quoteStr,
            some (.str (String.mk pre)), ⟨line, col⟩⟩ : Token) :: ts)) ∧
    (∀ (fuel : Nat) (rest : List Char) (line col : Nat), quoteChar ∉ rest →
      tokenizeLoop (fuel + 1) (quoteChar :: rest) line col =
        .error (.synErr ("Unterminated string literal") (some ⟨line, col⟩))) ∧
    tokenize (String.mk [quoteChar, 'a', quoteChar, quoteChar, 'b', quoteChar]) =
      .ok [⟨.STRING, String.mk [quoteChar, 'a', quoteChar],
              some (.str (String.mk ['a'])), ⟨1, 1⟩⟩,
           ⟨.STRING, String.mk [quoteChar, 'b', quoteChar],
              some (.str (String.mk ['b'])), ⟨1, 4⟩⟩,
           ⟨.EOF, "", none, ⟨1, 7⟩⟩] := by
  refine ⟨?_, ?_, ?_⟩
  · intro fuel pre post line col h
    have hb := takeStringBody_split pre post h
    rw [tokenizeLoop, hb]
    rfl
  · intro fuel rest line col h
    have hb := takeStringBody_none rest h
    rw [tokenizeLoop, hb]
    rfl
  · rfl

theorem lexer_string_no_escape_witness :
    (quoteChar ∉ (['a'] : List Char) ∧
      tokenizeLoop 2 (quoteChar :: (['a'] ++ quoteChar :: [])) 1 1 =
        (tokenizeLoop 1 []
            (advancePos (stepPos 1 1 quoteChar).1 (stepPos 1 1 quoteChar).2
              (['a'] ++ [quoteChar])).1
            (advancePos (stepPos 1 1 quoteChar).1 (stepPos 1 1 quoteChar).2
              (['a'] ++ [quoteChar])).2).map
          (fun ts => (⟨.STRING, quoteStr ++ String.mk ['a'] ++ quoteStr,
            some (.str (String.mk ['a'])), ⟨1, 1⟩⟩ : Token) :: ts)) ∧
    (quoteChar ∉ (['b'] : List Char) ∧
      tokenizeLoop 9 (quoteChar :: ['b']) 1 1 =
        .error (.synErr ("Unterminated string literal") (some ⟨1, 1⟩))) :=
  ⟨⟨by decide, lexer_string_no_escape.1 1 ['a'] [] 1 1 (by decide)⟩,
   ⟨by decide, lexer_string_no_escape.2.1 8 ['b'] 1 1 (by decide)⟩⟩

/-! ## The parser (`src/simpledb/parser.py`), INSERT path -/

/-- Python `str(x)` on a token value. -/
def pyStr : Option Value → String
  | none => "None"
  | some (.int n) => toString n
  | some (.str s) => s
  | some (.bool b) => if b then "True" else "False"

structure PState where
  tokens : List Token
  i : Nat
deriving DecidableEq, Repr

/-- `Parser.peek()`: the token at the cursor, or `tokens[-1]` past the end
(an uncaught `IndexError` on an empty token list, which `tokenize` never
produces). -/
def peekTok (st : PState) : Except Err Token :=
  match st.tokens.get? st.i with
  | some t => .ok t
  | none =>
      match st.tokens.getLast? with
      | some t => .ok t
      | none => .error (.fatal ("IndexError: empty token list"))

/-- `Parser.consume()`. -/
def consumeTok (st : PState) : Except Err (Token × PState) :=
  match peekTok st with
  | .error e => .error e
  | .ok t => .ok (t, ⟨st.tokens, st.i + 1⟩)

/-- `Parser.expect(typ, msg)`. -/
def expectTok (st : PState) (typ : TokenType) (msg : String) : Except Err (Token × PState) :=
  match peekTok st with
  | .error e => .error e
  | .ok t =>
      if t.typ ≠ typ then .error (.synErr msg (some t.pos))
      else consumeTok st

/-- `Parser.match(typ)`. -/
def matchTok (st : PState) (typ : TokenType) : Except Err (Bool × PState) :=
  match peekTok st with
  | .error e => .error e
  | .ok t =>
      if t.typ = typ then
        match consumeTok st with
        | .error e => .error e
        | .ok (_, st1) => .ok (true, st1)
      else .ok (false, st)

/-- `Parser.parse_literal()`.  (`tokenize` always stores an `int` in INT
tokens, a `str` in STRING tokens and a `bool` in BOOL tokens, so the
`fatal` conversion branches are unreachable on lexer output.) -/
def parse_literal (st : PState) : Except Err (Value × PState) :=
  match peekTok st with
  | .error e => .error e
  | .ok t =>
      if t.typ = .INT then
        match consumeTok st with
        | .error e => .error e
        | .ok (t2, st1) =>
            match t2.value with
            | some (.int n) => .ok (.int n, st1)
            | some (.bool b) => .ok (.int (if b then 1 else 0), st1)
            | _ => .error (.fatal ("int() conversion"))
      else if t.typ = .STRING then
        match consumeTok st with
        | .error e => .error e
        | .ok (t2, st1) => .ok (.str (pyStr t2.value), st1)
      else if t.typ = .BOOL then
        match consumeTok st with
        | .error e => .error e
        | .ok (t2, st1) =>
            match t2.value with
            | some (.bool b) => .ok (.bool b, st1)
            | some (.int n) => .ok (.bool (n ≠ 0), st1)
            | some (.str s) => .ok (.bool (s ≠ ""), st1)
            | none => .ok (.bool false, st1)
      else .error (.synErr (" literal (INT, STRING, BOOL)") (some t.pos))

/-- The `while self.match(COMMA): cols.append(...)` loop of `parse_insert`.
Fuel is an embedding artifact: each iteration moves the cursor forward, so
the `length + 1` supplied below never runs out. -/
def parseColsLoop : Nat → PState → List String → Except Err (List String × PState)
  | 0, _, _ => .error (.fatal ("parser fuel exhausted"))
  | fuel + 1, st, acc =>
      match matchTok st .COMMA with
      | .error e => .error e
      | .ok (false, st1) => .ok (acc, st1)
      | .ok (true, st1) =>
          match expectTok st1 .IDENT ("Expected column name") with
          | .error e => .error e
          | .ok (t, st2) => parseColsLoop fuel st2 (acc ++ [pyStr t.value])

/-- The `while self.match(COMMA): vals.append(...)` loop of `parse_insert`. -/
def parseValsLoop : Nat → PState → List Value → Except Err (List Value × PState)
  | 0, _, _ => .error (.fatal ("parser fuel exhausted"))
  | fuel + 1, st, acc =>
      match matchTok st .COMMA with
      | .error e => .error e
      | .ok (false, st1) => .ok (acc, st1)
      | .ok (true, st1) =>
          match parse_literal st1 with
          | .error e => .error e
          | .ok (v, st2) => parseValsLoop fuel st2 (acc ++ [v])

/-- Lines 188–203 of `Parser.parse_insert`: everything up to and including
`expect(RPAREN, "Expected ')' after values")`, before the arity check. -/
def parseInsertBody (st : PState) :
    Except Err (String × List String × List Value × PState) :=
  match expectTok st .INSERT ("Expected INSERT") with
  | .error e => .error e
  | .ok (_, st1) =>
  match expectTok st1 .INTO ("Expected INTO after INSERT") with
  | .error e => .error e
  | .ok (_, st2) =>
  match expectTok st2 .IDENT ("Expected table name") with
  | .error e => .error e
  | .ok (tt, st3) =>
  match expectTok st3 .LPAREN ("Expected " ++ quoteStr ++ "(" ++ quoteStr ++ " before column list") with
  | .error e => .error e
  | .ok (_, st4) =>
  match expectTok st4 .IDENT ("Expected column name") with
  | .error e => .error e
  | .ok (c0, st5) =>
  match parseColsLoop (st5.tokens.length + 1) st5 [pyStr c0.value] with
  | .error e => .error e
  | .ok (cols, st6) =>
  match expectTok st6 .RPAREN ("Expected " ++ quoteStr ++ ")" ++ quoteStr ++ " after column list") with
  | .error e => .error e
  | .ok (_, st7) =>
  match expectTok st7 .VALUES ("Expected VALUES") with
  | .error e => .error e
  | .ok (_, st8) =>
  match expectTok st8 .LPAREN ("Expected " ++ quoteStr ++ "(" ++ quoteStr ++ " before values") with
  | .error e => .error e
  | .ok (_, st9) =>
  match parse_literal st9 with
  | .error e => .error e
  | .ok (v0, st10) =>
  match parseValsLoop (st10.tokens.length + 1) st10 [v0] with
  | .error e => .error e
  | .ok (vals, st11) =>
  match expectTok st11 .RPAREN ("Expected " ++ quoteStr ++ ")" ++ quoteStr ++ " after values") with
  | .error e => .error e
  | .ok (_, st12) => .ok (pyStr tt.value, cols, vals, st12)

/-- Lines 188–208 of `Parser.parse_insert`: the body, then the arity check
raising at `self.peek().pos` (the token after the consumed `)` ). -/
def parse_insert (st : PState) : Except Err (Stmt × PState) :=
  match parseInsertBody st with
  | .error e => .error e
  | .ok (table, cols, vals, st') =>
      if cols.length ≠ vals.length then
        match peekTok st' with
        | .error e => .error e
        | .ok t => .error (.synErr ("Number of columns does not match number of values")
            (some t.pos))
      else .ok (.insert table cols vals, st')

/-! ## Claim C7 -/

theorem expectTok_ok_inv (st : PState) (ty : TokenType) (msg : String) (t : Token)
    (st2 : PState) (h : expectTok st ty msg = .ok (t, st2)) :
    peekTok st = .ok t ∧ t.typ = ty ∧ st2 = ⟨st.tokens, st.i + 1⟩ := by
  unfold expectTok at h
  cases hp : peekTok st with
  | error e => rw [hp] at h; cases h
  | ok t0 =>
      rw [hp] at h
      dsimp only at h
      by_cases hty : t0.typ ≠ ty
      · rw [if_pos hty] at h; cases h
      · rw [if_neg hty] at h
        unfold consumeTok at h
        rw [hp] at h
        injection h with h2
        have ht : t0 = t := congrArg Prod.fst h2
        have hs : (⟨st.tokens, st.i + 1⟩ : PState) = st2 := congrArg Prod.snd h2
        rw [← ht]
        exact ⟨rfl, not_not.mp hty, hs.symm⟩

theorem matchTok_ok_tokens (st : PState) (ty : TokenType) (b : Bool) (st1 : PState)
    (h : matchTok st ty = .ok (b, st1)) : st1.tokens = st.tokens := by
  unfold matchTok at h
  cases hp : peekTok st with
  | error e => rw [hp] at h; cases h
  | ok t =>
      rw [hp] at h
      dsimp only at h
      by_cases hty : t.typ = ty
      · rw [if_pos hty] at h
        unfold consumeTok at h
        rw [hp] at h
        injection h with h2
        have hs : (⟨st.tokens, st.i + 1⟩ : PState) = st1 := congrArg Prod.snd h2
        rw [← hs]
      · rw [if_neg hty] at h
        injection h with h2
        have hs : st = st1 := congrArg Prod.snd h2
        rw [← hs]

theorem parse_literal_ok_tokens (st : PState) (v : Value) (st1 : PState)
    (h : parse_literal st = .ok (v, st1)) : st1.tokens = st.tokens := by
  unfold parse_literal at h
  cases hp : peekTok st with
  | error e => rw [hp] at h; cases h
  | ok t =>
      rw [hp] at h
      unfold consumeTok at h
      rw [hp] at h
      dsimp only at h
      repeat' split at h
      all_goals try (cases h)
      all_goals rfl

theorem parseColsLoop_ok_tokens :
    ∀ (fuel : Nat) (st : PState) (acc cols : List String) (st2 : PState),
    parseColsLoop fuel st acc = .ok (cols, st2) → st2.tokens = st.tokens := by
  intro fuel
  induction fuel with
  | zero => intro st acc cols st2 h; cases h
  | succ fuel ih =>
      intro st acc cols st2 h
      rw [parseColsLoop] at h
      cases hm : matchTok st .COMMA with
      | error e => rw [hm] at h; cases h
      | ok p =>
          rw [hm] at h
          obtain ⟨b, st1⟩ := p
          cases b with
          | false =>
              dsimp only at h
              injection h with h2
              have hs : st1 = st2 := congrArg Prod.snd h2
              rw [← hs]
              exact matchTok_ok_tokens st .COMMA false st1 hm
          | true =>
              dsimp only at h
              cases he : expectTok st1 .IDENT ("Expected column name") with
              | error e => rw [he] at h; cases h
              | ok q =>
                  rw [he] at h
                  obtain ⟨t, st1b⟩ := q
                  have h1 := ih st1b (acc ++ [pyStr t.value]) cols st2 h
                  have h2 := (expectTok_ok_inv st1 .IDENT _ t st1b he).2.2
                  have h3 := matchTok_ok_tokens st .COMMA true st1 hm
                  rw [h1, h2]
                  exact h3

theorem parseValsLoop_ok_tokens :
    ∀ (fuel : Nat) (st : PState) (acc vals : List Value) (st2 : PState),
    parseValsLoop fuel st acc = .ok (vals, st2) → st2.tokens = st.tokens := by
  intro fuel
  induction fuel with
  | zero => intro st acc vals st2 h; cases h
  | succ fuel ih =>
      intro st acc vals st2 h
      rw [parseValsLoop] at h
      cases hm : matchTok st .COMMA with
      | error e => rw [hm] at h; cases h
      | ok p =>
          rw [hm] at h
          obtain ⟨b, st1⟩ := p
          cases b with
          | false =>
              dsimp only at h
              injection h with h2
              have hs : st1 = st2 := congrArg Prod.snd h2
              rw [← hs]
              exact matchTok_ok_tokens st .COMMA false st1 hm
          | true =>
              dsimp only at h
              cases he : parse_literal st1 with
              | error e => rw [he] at h; cases h
              | ok q =>
                  rw [he] at h
                  obtain ⟨w, st1b⟩ := q
                  have h1 := ih st1b (acc ++ [w]) vals st2 h
                  have h2 := parse_literal_ok_tokens st1 w st1b he
                  have h3 := matchTok_ok_tokens st .COMMA true st1 hm
                  rw [h1, h2]
                  exact h3

/-- Inverting a successful `parseInsertBody`: the token list is unchanged and
the cursor stands immediately after a closing-parenthesis token. -/
theorem parseInsertBody_ok_inv (st : PState) (tb : String) (cols : List String)
    (vals : List Value) (st' : PState)
    (h : parseInsertBody st = .ok (tb, cols, vals, st')) :
    st'.tokens = st.tokens ∧ 0 < st'.i ∧
    ∃ rp, peekTok ⟨st'.tokens, st'.i - 1⟩ = .ok rp ∧ rp.typ = .RPAREN := by
  unfold parseInsertBody at h
  repeat' split at h
  all_goals try (exact Except.noConfusion h)
  rename_i z1 a1 s1 h1 z2 a2 s2 h2 z3 tt s3 h3 z4 a4 s4 h4 z5 c0 s5 h5 z6 cols0 s6 h6 z7 a7 s7 h7 z8 a8 s8 h8 z9 a9 s9 h9 z10 v0 s10 h10 z11 vals0 s11 h11 z12 x12 s12 h12
  injection h with hq
  have hst : s12 = st' := congrArg (fun q => q.2.2.2) hq
  have e1 := (expectTok_ok_inv _ _ _ _ _ h1).2.2
  have e2 := (expectTok_ok_inv _ _ _ _ _ h2).2.2
  have e3 := (expectTok_ok_inv _ _ _ _ _ h3).2.2
  have e4 := (expectTok_ok_inv _ _ _ _ _ h4).2.2
  have e5 := (expectTok_ok_inv _ _ _ _ _ h5).2.2
  have e6 := parseColsLoop_ok_tokens _ _ _ _ _ h6
  have e7 := (expectTok_ok_inv _ _ _ _ _ h7).2.2
  have e8 := (expectTok_ok_inv _ _ _ _ _ h8).2.2
  have e9 := (expectTok_ok_inv _ _ _ _ _ h9).2.2
  have e10 := parse_literal_ok_tokens _ _ _ h10
  have e11 := parseValsLoop_ok_tokens _ _ _ _ _ h11
  have hi12 := expectTok_ok_inv _ _ _ _ _ h12
  have t1 : s1.tokens = st.tokens := by rw [e1]
  have t2 : s2.tokens = st.tokens := by rw [e2]; exact t1
  have t3 : s3.tokens = st.tokens := by rw [e3]; exact t2
  have t4 : s4.tokens = st.tokens := by rw [e4]; exact t3
  have t5 : s5.tokens = st.tokens := by rw [e5]; exact t4
  have t6 : s6.tokens = st.tokens := by rw [e6]; exact t5
  have t7 : s7.tokens = st.tokens := by rw [e7]; exact t6
  have t8 : s8.tokens = st.tokens := by rw [e8]; exact t7
  have t9 : s9.tokens = st.tokens := by rw [e9]; exact t8
  have t10 : s10.tokens = st.tokens := by rw [e10]; exact t9
  have t11 : s11.tokens = st.tokens := by rw [e11]; exact t10
  have t12 : s12.tokens = st.tokens := by rw [hi12.2.2]; exact t11
  refine ⟨?_, ?_, ?_⟩
  · rw [← hst]; exact t12
  · rw [← hst, hi12.2.2]
    exact Nat.succ_pos _
  · refine ⟨x12, ?_, hi12.2.1⟩
    rw [← hst, hi12.2.2]
    show peekTok ⟨s11.tokens, s11.i + 1 - 1⟩ = .ok x12
    rw [Nat.add_sub_cancel]
    exact hi12.1

/-- **C7 (corrected).** When an INSERT's column list and value list have
different lengths, parsing fails with `SqlSyntaxError` "Number of columns
does not match number of values", but the reported position is
`self.peek().pos` — the position of the token *after* the already-consumed
closing parenthesis of the values list (e.g. the following semicolon or
EOF), not the closing parenthesis itself. -/
theorem insert_arity_error_after_rparen (st : PState) (tb : String) (cols : List String)
    (vals : List Value) (st' : PState) (t : Token)
    (hbody : parseInsertBody st = .ok (tb, cols, vals, st'))
    (hne : cols.length ≠ vals.length)
    (hpk : peekTok st' = .ok t) :
    parse_insert st =
      .error (.synErr ("Number of columns does not match number of values") (some t.pos)) ∧
    st'.tokens = st.tokens ∧ 0 < st'.i ∧
    ∃ rp, peekTok ⟨st'.tokens, st'.i - 1⟩ = .ok rp ∧ rp.typ = .RPAREN := by
  have hinv := parseInsertBody_ok_inv st tb cols vals st' hbody
  refine ⟨?_, hinv.1, hinv.2.1, hinv.2.2⟩
  unfold parse_insert
  rw [hbody]
  show (if cols.length ≠ vals.length then
      ((match peekTok st' with
        | .error e => .error e
        | .ok t2 => .error (.synErr ("Number of columns does not match number of values")
            (some t2.pos))) : Except Err (Stmt × PState))
    else .ok (.insert tb cols vals, st')) = _
  rw [if_pos hne, hpk]

def c7sql : String := "INSERT INTO t (a, b) VALUES (1)"

def c7toks : List Token :=
  [⟨.INSERT, "INSERT", some (.str "INSERT"), ⟨1, 1⟩⟩,
   ⟨.INTO, "INTO", some (.str "INTO"), ⟨1, 8⟩⟩,
   ⟨.IDENT, "t", some (.str "t"), ⟨1, 13⟩⟩,
   ⟨.LPAREN, "(", none, ⟨1, 15⟩⟩,
   ⟨.IDENT, "a", some (.str "a"), ⟨1, 16⟩⟩,
   ⟨.COMMA, ",", none, ⟨1, 17⟩⟩,
   ⟨.IDENT, "b", some (.str "b"), ⟨1, 19⟩⟩,
   ⟨.RPAREN, ")", none, ⟨1, 20⟩⟩,
   ⟨.VALUES, "VALUES", some (.str "VALUES"), ⟨1, 22⟩⟩,
   ⟨.LPAREN, "(", none, ⟨1, 29⟩⟩,
   ⟨.INT, "1", some (.int 1), ⟨1, 30⟩⟩,
   ⟨.RPAREN, ")", none, ⟨1, 31⟩⟩,
   ⟨.EOF, "", none, ⟨1, 32⟩⟩]

/-- Counterexample to C7 as stated: for `INSERT INTO t (a, b) VALUES (1)`
the closing parenthesis of the values list sits at column 31, but the
arity error is reported at column 32 (the EOF token after it). -/
theorem insert_arity_error_not_at_paren :
    tokenize c7sql = .ok c7toks ∧
    c7toks.get? 11 = some ⟨.RPAREN, ")", none, ⟨1, 31⟩⟩ ∧
    parse_insert ⟨c7toks, 0⟩ =
      .error (.synErr ("Number of columns does not match number of values") (some ⟨1, 32⟩)) ∧
    ¬((⟨1, 32⟩ : Position) = ⟨1, 31⟩) :=
  ⟨rfl, rfl, rfl, by decide⟩

theorem insert_arity_error_after_rparen_witness :
    parse_insert ⟨c7toks, 0⟩ =
      .error (.synErr ("Number of columns does not match number of values")
        (some (⟨1, 32⟩ : Position))) ∧
    (⟨c7toks, 12⟩ : PState).tokens = (⟨c7toks, 0⟩ : PState).tokens ∧ 0 < (12 : Nat) ∧
    ∃ rp, peekTok ⟨c7toks, 12 - 1⟩ = .ok rp ∧ rp.typ = .RPAREN :=
  insert_arity_error_after_rparen ⟨c7toks, 0⟩ "t" ["a", "b"] [.int 1] ⟨c7toks, 12⟩
    ⟨.EOF, "", none, ⟨1, 32⟩⟩ (by rfl) (by decide) (by rfl)

/-! ## Claim C5 — `Database.execute_script` -/

/-- Modelled from the spec: `Database.execute_script(sql)` is part of the
documented library surface and is called by
`src/finance_tracker/app/db_core.py`, but `Database` in
`src/simpledb/db.py` defines only `open` and `execute` — the method is
absent from the source.  Per the spec it parses the script and executes
each parsed statement in order, returning the list of
CommandOk/QueryResult results and stopping on the first error, with
previously executed statements remaining committed.  The model takes the
parsed statement list (the `parse_script` output) and threads the database
state: on the first error it stops, returning that error together with the
state already reached. -/
def execute_script (st : DBState) : List Stmt → DBState × Except Err (List ExecResult)
  | [] => (st, .ok [])
  | s :: rest =>
      match execute st s with
      | (st1, .error e) => (st1, .error e)
      | (st1, .ok r) =>
          match execute_script st1 rest with
          | (st2, .error e) => (st2, .error e)
          | (st2, .ok rs) => (st2, .ok (r :: rs))

def c5create : Stmt := Stmt.createTable "t" [⟨"a", ⟨"INTEGER", []⟩, false, false, true⟩]

def c5ins1 : Stmt := Stmt.insert "t" ["a"] [.int 1]

def c5ins2 : Stmt := Stmt.insert "t" ["a"] [.int 1]

/-- **C5.** The library surface's `execute_script` (modelled from the spec;
the method is called by `db_core.py` but missing from `Database`) executes
the parsed statements in order, collecting each statement's
CommandOk/QueryResult; it stops at the first error, leaving the effects of
the previously executed statements committed in the returned state; on the
concrete script CREATE / INSERT / duplicate-PK INSERT it returns the
constraint error while the first row stays committed. -/
theorem execute_script_surface :
    (∀ st : DBState, execute_script st [] = (st, .ok [])) ∧
    (∀ (st : DBState) (s : Stmt) (rest : List Stmt) (st1 : DBState) (r : ExecResult),
      execute st s = (st1, Except.ok r) →
      execute_script st (s :: rest) =
        ((execute_script st1 rest).1,
         (execute_script st1 rest).2.map (fun rs => r :: rs))) ∧
    (∀ (st : DBState) (s : Stmt) (rest : List Stmt) (st1 : DBState) (e : Err),
      execute st s = (st1, Except.error e) →
      execute_script st (s :: rest) = (st1, Except.error e)) ∧
    ((execute_script initState [c5create, c5ins1, c5ins2]).2 =
      .error (.constraintErr ("PRIMARY KEY constraint failed: duplicate value 1 for t.a")) ∧
     scan_active (getHeap (execute_script initState [c5create, c5ins1, c5ins2]).1 "t").log =
       [[("_rid", some (.int 1)), ("a", some (.int 1))]]) := by
  refine ⟨fun st => rfl, ?_, ?_, rfl, rfl⟩
  · intro st s rest st1 r h
    rw [execute_script, h]
    dsimp only
    cases hrec : execute_script st1 rest with
    | mk st2 res =>
        cases res with
        | error e2 => rfl
        | ok rs => rfl
  · intro st s rest st1 e h
    rw [execute_script, h]

def c5st1 : DBState := (execute initState c5create).1

def c5st2 : DBState := (execute c5st1 c5ins1).1

theorem execute_script_surface_witness :
    (execute initState c5create = (c5st1, Except.ok (.cmd ⟨0, "Table created: t"⟩)) ∧
      execute_script initState (c5create :: [c5ins1, c5ins2]) =
        ((execute_script c5st1 [c5ins1, c5ins2]).1,
         (execute_script c5st1 [c5ins1, c5ins2]).2.map
           (fun rs => ExecResult.cmd ⟨0, "Table created: t"⟩ :: rs))) ∧
    (execute c5st2 c5ins2 =
        (c5st2, Except.error (.constraintErr
          ("PRIMARY KEY constraint failed: duplicate value 1 for t.a"))) ∧
      execute_script c5st2 (c5ins2 :: []) =
        (c5st2, Except.error (.constraintErr
          ("PRIMARY KEY constraint failed: duplicate value 1 for t.a")))) :=
  ⟨⟨rfl, execute_script_surface.2.1 initState c5create [c5ins1, c5ins2] c5st1
      (ExecResult.cmd ⟨0, "Table created: t"⟩) (by rfl)⟩,
   ⟨rfl, execute_script_surface.2.2.1 c5st2 c5ins2 [] c5st2
      (.constraintErr ("PRIMARY KEY constraint failed: duplicate value 1 for t.a")) (by rfl)⟩⟩

end SimpleDB
